import Mathlib

/-!
# Verification of `FoodDeliverySMO/smo_food_center.py`

A shallow embedding of the discrete-event simulation engine in
`smo_food_center.py`.  Python floats are modelled as `ℚ`, Python ints as `ℤ`
(counters that are only ever natural still use `ℤ` to match the source).
`random.expovariate` draws are modelled by an explicit stream `ℕ → ℚ` carried
in the engine state: the Python global generator, once seeded, is a pure
function of the seed, so a run's draws form such a stream.  `heapq` is
modelled by keeping the event queue as a list sorted by the dataclass
ordering (`@dataclass(order=True)` compares the field tuple
lexicographically); `heappop` is taking the head.
-/

namespace FoodDeliverySMO

unseal List.merge List.mergeSort Rat.mul Rat.inv Rat.add Rat.sub Nat.gcd

/-- Python `EventType` enum; `auto()` numbers the members 1..5. -/
inductive EventType
  | ORDER_GENERATED
  | ORDER_TO_OPERATOR
  | OPERATOR_FREE
  | ORDER_TO_BUFFER
  | ORDER_REJECTED
deriving DecidableEq, Repr

/-- The `auto()` value of an `EventType` member. -/
def EventType.val : EventType → ℕ
  | .ORDER_GENERATED => 1
  | .ORDER_TO_OPERATOR => 2
  | .OPERATOR_FREE => 3
  | .ORDER_TO_BUFFER => 4
  | .ORDER_REJECTED => 5

/-- `@dataclass(order=True) class Event` (line 19): the sentinel defaults
`-1` / `0.0` of the optional fields are kept. -/
structure Event where
  time : ℚ
  etype : EventType
  restaurant_id : ℤ := -1
  order_id : ℤ := -1
  operator_id : ℤ := -1
  buffer_pos : ℤ := -1
  wait_time : ℚ := 0
deriving DecidableEq, Repr

/-- Three-way comparison used to build the lexicographic dataclass order. -/
def cmp3 {α : Type} [LT α] [DecidableRel (α := α) (· < ·)] (a b : α) : Ordering :=
  if a < b then .lt else if b < a then .gt else .eq

/-- Lexicographic chaining: strict verdicts win, ties fall through. -/
def thenB (c : Ordering) (rest : Bool) : Bool :=
  match c with
  | .lt => true
  | .gt => false
  | .eq => rest

/-- The total order `heapq` sees on events: `@dataclass(order=True)` compares
the tuple `(time, etype, restaurant_id, order_id, operator_id, buffer_pos,
wait_time)` lexicographically (enum members compared by value). -/
def eventLe (a b : Event) : Bool :=
  thenB (cmp3 a.time b.time) <|
    thenB (cmp3 a.etype.val b.etype.val) <|
      thenB (cmp3 a.restaurant_id b.restaurant_id) <|
        thenB (cmp3 a.order_id b.order_id) <|
          thenB (cmp3 a.operator_id b.operator_id) <|
            thenB (cmp3 a.buffer_pos b.buffer_pos) <|
              decide (a.wait_time ≤ b.wait_time)

theorem cmp3_swap {α : Type} [LinearOrder α] (a b : α) :
    cmp3 b a = (cmp3 a b).swap := by
  unfold cmp3
  rcases lt_trichotomy a b with h | h | h
  · simp [h, not_lt_of_gt h, Ordering.swap]
  · simp [h, lt_irrefl, Ordering.swap]
  · simp [h, not_lt_of_gt h, Ordering.swap]

theorem thenB_swap_false {c : Ordering} {r r' : Bool}
    (hc : thenB c r = false) (hr : r = false → r' = true) :
    thenB c.swap r' = true := by
  cases c <;> simp_all [thenB, Ordering.swap]

/-- Totality of the dataclass order. -/
theorem eventLe_total (a b : Event) (h : eventLe a b = false) :
    eventLe b a = true := by
  unfold eventLe at h ⊢
  rw [cmp3_swap a.time b.time, cmp3_swap a.etype.val b.etype.val,
    cmp3_swap a.restaurant_id b.restaurant_id, cmp3_swap a.order_id b.order_id,
    cmp3_swap a.operator_id b.operator_id, cmp3_swap a.buffer_pos b.buffer_pos]
  refine thenB_swap_false h fun h => ?_
  refine thenB_swap_false h fun h => ?_
  refine thenB_swap_false h fun h => ?_
  refine thenB_swap_false h fun h => ?_
  refine thenB_swap_false h fun h => ?_
  refine thenB_swap_false h fun h => ?_
  simp only [decide_eq_false_iff_not, not_le] at h
  simpa using le_of_lt h

/-- The first lexicographic key is `time`. -/
theorem eventLe_time {a b : Event} (h : eventLe a b = true) :
    a.time ≤ b.time := by
  unfold eventLe at h
  unfold cmp3 at h
  by_cases h1 : a.time < b.time
  · exact le_of_lt h1
  · by_cases h2 : b.time < a.time
    · simp [h1, h2, thenB] at h
    · exact le_of_not_lt h2

/-- Model of `heapq.heappush`: ordered insertion into the sorted queue. -/
def insertEv (e : Event) : List Event → List Event
  | [] => [e]
  | x :: xs => if eventLe e x then e :: x :: xs else x :: insertEv e xs

theorem insertEv_perm (e : Event) (l : List Event) :
    List.Perm (insertEv e l) (e :: l) := by
  induction l with
  | nil => exact List.Perm.refl _
  | cons x xs ih =>
    unfold insertEv
    by_cases h : eventLe e x = true
    · simp [h]
    · simp only [h]
      simp only [Bool.false_eq_true, if_false]
      exact (ih.cons x).trans (List.Perm.swap e x xs)

theorem mem_insertEv {e x : Event} {l : List Event} :
    x ∈ insertEv e l ↔ x = e ∨ x ∈ l := by
  rw [(insertEv_perm e l).mem_iff]
  simp

theorem countP_insertEv (p : Event → Bool) (e : Event) (l : List Event) :
    (insertEv e l).countP p = l.countP p + (if p e then 1 else 0) := by
  rw [(insertEv_perm e l).countP_eq]
  simp [List.countP_cons]

theorem pairwise_time_insertEv {e : Event} {l : List Event}
    (h : l.Pairwise (fun a b => a.time ≤ b.time)) :
    (insertEv e l).Pairwise (fun a b => a.time ≤ b.time) := by
  induction l with
  | nil => simp [insertEv]
  | cons x xs ih =>
    rcases List.pairwise_cons.mp h with ⟨hx, hxs⟩
    unfold insertEv
    by_cases he : eventLe e x = true
    · simp only [he, if_true]
      refine List.pairwise_cons.mpr ⟨?_, h⟩
      intro b hb
      rcases List.mem_cons.mp hb with rfl | hb
      · exact eventLe_time he
      · exact le_trans (eventLe_time he) (hx b hb)
    · simp only [he]
      simp only [Bool.false_eq_true, if_false]
      refine List.pairwise_cons.mpr ⟨?_, ih hxs⟩
      intro b hb
      rcases mem_insertEv.mp hb with rfl | hb
      · exact eventLe_time (eventLe_total _ _ (by simpa using he))
      · exact hx b hb

/-- `@dataclass class Order` (line 41). -/
structure Order where
  restaurant_id : ℤ
  order_id : ℤ
  timestamp : ℚ
deriving DecidableEq, Repr

/-- The scan-and-remove core of `Buffer.pop_first_by_restaurant` (lines
86–94): remove the first order of the given restaurant; `list.pop(i)`
shifts the remaining entries, i.e. concatenates the two sides. -/
def popFirstMatch (rid : ℤ) : List Order → Option (Order × List Order)
  | [] => none
  | o :: rest =>
    if o.restaurant_id = rid then some (o, rest)
    else (popFirstMatch rid rest).map fun p => (p.1, o :: p.2)

theorem popFirstMatch_eq_some {rid : ℤ} {l l' : List Order} {o : Order}
    (h : popFirstMatch rid l = some (o, l')) :
    ∃ l₁ l₂, l = l₁ ++ o :: l₂ ∧ l' = l₁ ++ l₂ ∧ o.restaurant_id = rid ∧
      ∀ x ∈ l₁, x.restaurant_id ≠ rid := by
  induction l generalizing l' with
  | nil => simp [popFirstMatch] at h
  | cons x xs ih =>
    unfold popFirstMatch at h
    by_cases hx : x.restaurant_id = rid
    · simp only [hx, if_true, Option.some.injEq, Prod.mk.injEq] at h
      rcases h with ⟨rfl, rfl⟩
      exact ⟨[], xs, by simp, by simp, hx, by simp⟩
    · simp only [hx, if_false, Option.map_eq_some'] at h
      rcases h with ⟨⟨o', xs'⟩, hrec, heq⟩
      have ho : o' = o := by simpa using congrArg Prod.fst heq
      have hl : l' = x :: xs' := by simpa using (congrArg Prod.snd heq).symm
      subst ho
      subst hl
      rcases ih hrec with ⟨l₁, l₂, h1, h2, h3, h4⟩
      refine ⟨x :: l₁, l₂, by simp [h1], by simp [h2], h3, ?_⟩
      intro y hy
      rcases List.mem_cons.mp hy with rfl | hy
      · exact hx
      · exact h4 y hy

theorem popFirstMatch_eq_none {rid : ℤ} {l : List Order} :
    popFirstMatch rid l = none ↔ ∀ o ∈ l, o.restaurant_id ≠ rid := by
  induction l with
  | nil => simp [popFirstMatch]
  | cons x xs ih =>
    unfold popFirstMatch
    by_cases hx : x.restaurant_id = rid
    · simp [hx]
    · simp [hx, ih]

theorem popFirstMatch_isSome_of_mem {rid : ℤ} {l : List Order} {o : Order}
    (ho : o ∈ l) (hrid : o.restaurant_id = rid) :
    ∃ o' l', popFirstMatch rid l = some (o', l') := by
  cases h : popFirstMatch rid l with
  | none => exact absurd hrid (popFirstMatch_eq_none.mp h o ho)
  | some p => exact ⟨p.1, p.2, by simp⟩

/-- `class Buffer` (lines 54–103): bounded FIFO list with shift-on-removal. -/
structure Buffer where
  capacity : ℤ
  orders : List Order
deriving DecidableEq, Repr

/-- `Buffer.is_full` (line 67): `len(self.orders) >= self.capacity`. -/
def Buffer.is_full (b : Buffer) : Bool :=
  decide ((b.orders.length : ℤ) ≥ b.capacity)

/-- `Buffer.is_empty` (line 70). -/
def Buffer.is_empty (b : Buffer) : Bool :=
  decide (b.orders.length = 0)

/-- `Buffer.add_fifo` (lines 73–78): append at the tail and return the index,
or `-1` when full (buffer untouched).  State threading replaces mutation. -/
def Buffer.add_fifo (b : Buffer) (o : Order) : ℤ × Buffer :=
  if b.is_full then (-1, b)
  else ((b.orders.length : ℤ), { b with orders := b.orders ++ [o] })

/-- `Buffer.pop_first` (lines 80–84). -/
def Buffer.pop_first (b : Buffer) : Option Order × Buffer :=
  match b.orders with
  | [] => (none, b)
  | o :: rest => (some o, { b with orders := rest })

/-- `Buffer.pop_first_by_restaurant` (lines 86–94). -/
def Buffer.pop_first_by_restaurant (b : Buffer) (rid : ℤ) :
    Option Order × Buffer :=
  match popFirstMatch rid b.orders with
  | none => (none, b)
  | some (o, rest) => (some o, { b with orders := rest })

/-- `Buffer.restaurants_present` (lines 96–98): `sorted({...})` — the distinct
restaurant ids in the buffer, in ascending order. -/
def Buffer.restaurants_present (b : Buffer) : List ℤ :=
  ((b.orders.map Order.restaurant_id).dedup).mergeSort fun a b => decide (a ≤ b)

/-- `class RestaurantSource` (lines 109–143): infinite source with fixed
inter-arrival interval.  The `interval <= 0` `ValueError` of its constructor
is modelled by `RestaurantSource.mk_checked` below. -/
structure RestaurantSource where
  restaurant_id : ℤ
  interval : ℚ
  generated : ℤ
  next_time : ℚ
deriving DecidableEq, Repr

instance : Inhabited RestaurantSource := ⟨⟨0, 0, 0, 0⟩⟩

/-- `RestaurantSource.__init__` (lines 123–132) with its `ValueError` explicit. -/
def RestaurantSource.mk_checked (restaurant_id : ℤ) (interval start_offset : ℚ) :
    Except String RestaurantSource :=
  if interval ≤ 0 then .error "interval must be > 0 for IZ1"
  else .ok { restaurant_id := restaurant_id, interval := interval,
             generated := 0, next_time := start_offset }

/-- `RestaurantSource.generate_event` (lines 134–143): emit the arrival at
`next_time`, bump the counter, advance `next_time` by the fixed interval. -/
def RestaurantSource.generate_event (r : RestaurantSource) :
    Event × RestaurantSource :=
  ({ time := r.next_time, etype := .ORDER_GENERATED,
     restaurant_id := r.restaurant_id, order_id := r.generated },
   { r with generated := r.generated + 1, next_time := r.next_time + r.interval })

/-- `class Operator` (lines 149–185). -/
structure Operator where
  operator_id : ℤ
  mean_service_time : ℚ
  busy : Bool
  current_order : Option Order
  batch_restaurant_id : Option ℤ
deriving DecidableEq, Repr

instance : Inhabited Operator := ⟨⟨0, 0, false, none, none⟩⟩

/-- `Operator.__init__` (lines 150–160) with its `ValueError` explicit. -/
def Operator.mk_checked (operator_id : ℤ) (mean_service_time : ℚ) :
    Except String Operator :=
  if mean_service_time ≤ 0 then .error "mean_service_time must be > 0"
  else .ok { operator_id := operator_id, mean_service_time := mean_service_time,
             busy := false, current_order := none, batch_restaurant_id := none }

/-- `Operator.start_service` (lines 162–180).  `dt` stands for the value the
Python code draws with `random.expovariate(1.0 / self.mean_service_time)`;
the engine supplies it from its draw stream. -/
def Operator.start_service (op : Operator) (order : Order)
    (current_time dt : ℚ) : Operator × Event :=
  let finish_time := current_time + dt
  let wait_time := current_time - order.timestamp
  ({ op with busy := true, current_order := some order,
             batch_restaurant_id := some order.restaurant_id },
   { time := finish_time, etype := .OPERATOR_FREE,
     restaurant_id := order.restaurant_id, order_id := order.order_id,
     operator_id := op.operator_id, wait_time := wait_time })

/-- `Operator.free` (lines 182–185): clear `busy` and `current_order`;
`batch_restaurant_id` deliberately kept. -/
def Operator.free (op : Operator) : Operator :=
  { op with busy := false, current_order := none }

/-- `class SMO` (lines 191–343).  `draws` is the stream of future
`random.expovariate` results of the global generator. -/
structure SMO where
  time : ℚ
  buffer : Buffer
  operators : List Operator
  restaurants : List RestaurantSource
  event_queue : List Event
  last_events : List Event
  total_generated : ℤ
  total_processed : ℤ
  total_rejected : ℤ
  wait_times : List (List ℚ)
  draws : ℕ → ℚ

/-- The sources as built in `SMO.__init__` (lines 208–214): deterministic
start offsets `i * interval / num_restaurants`. -/
def initial_restaurants (num_restaurants : ℕ) (interval : ℚ) :
    List RestaurantSource :=
  (List.range num_restaurants).map fun i : ℕ =>
    { restaurant_id := (i : ℤ), interval := interval, generated := 0,
      next_time := ((i : ℚ) * interval) / (num_restaurants : ℚ) }

/-- `SMO.__init__` (lines 192–228) after the constructor checks have passed:
the loop at lines 227–228 pushes each source's first generation event (and
thereby advances each source once). -/
def SMO.init (num_restaurants num_operators : ℕ) (interval op_mean : ℚ)
    (buffer_cap : ℤ) (draws : ℕ → ℚ) : SMO :=
  let rests := initial_restaurants num_restaurants interval
  { time := 0
    buffer := { capacity := buffer_cap, orders := [] }
    operators := (List.range num_operators).map fun i : ℕ =>
      { operator_id := (i : ℤ), mean_service_time := op_mean, busy := false,
        current_order := none, batch_restaurant_id := none }
    restaurants := rests.map fun r => r.generate_event.2
    event_queue := (rests.map fun r => r.generate_event.1).foldl
      (fun q e => insertEv e q) []
    last_events := []
    total_generated := 0
    total_processed := 0
    total_rejected := 0
    wait_times := (List.range num_restaurants).map fun _ => []
    draws := draws }

/-- The effect of a Python list comprehension whose element constructor may
raise: elements are built left to right and the first exception aborts. -/
def collectExcept {β : Type} : List (Except String β) → Except String (List β)
  | [] => .ok []
  | x :: xs =>
    match x with
    | .error e => .error e
    | .ok b =>
      match collectExcept xs with
      | .error e => .error e
      | .ok bs => .ok (b :: bs)

/-- `SMO.__init__` with the `ValueError`s of the component constructors made
explicit, in source order: the operator list is built first (lines 206,
150–152), then the sources (lines 212–214, 123–125).  `Buffer.__init__`
(lines 63–65) performs no validation, so `buffer_cap` is not checked. -/
def SMO.mk_checked (num_restaurants num_operators : ℕ) (interval op_mean : ℚ)
    (buffer_cap : ℤ) (draws : ℕ → ℚ) : Except String SMO :=
  match collectExcept ((List.range num_operators).map fun i : ℕ =>
      Operator.mk_checked (i : ℤ) op_mean) with
  | .error e => .error e
  | .ok _ =>
    match collectExcept ((List.range num_restaurants).map fun i : ℕ =>
        RestaurantSource.mk_checked (i : ℤ) interval
          (((i : ℚ) * interval) / (num_restaurants : ℚ))) with
    | .error e => .error e
    | .ok _ =>
      .ok (SMO.init num_restaurants num_operators interval op_mean buffer_cap draws)

/-- `SMO._get_free_operator_d2p1` (lines 231–235): scan the operators in
ascending `operator_id` order (`sorted(self.operators, key=...)`) and return
the first idle one. -/
def SMO.get_free_operator_d2p1 (s : SMO) : Option Operator :=
  (s.operators.mergeSort fun a b => decide (a.operator_id ≤ b.operator_id)).find?
    fun op => !op.busy

/-- `SMO._select_restaurant_for_batch` (lines 238–240): lowest id present. -/
def select_restaurant_for_batch (b : Buffer) : Option ℤ :=
  match b.restaurants_present with
  | [] => none
  | r :: _ => some r

/-- `SMO._take_order_from_buffer_d2b5` (lines 242–257).  The operator and
buffer mutations are returned explicitly. -/
def take_order_from_buffer_d2b5 (op : Operator) (b : Buffer) :
    Option Order × Operator × Buffer :=
  if b.is_empty then (none, op, b)
  else
    let continue_batch : Option (Order × List Order) :=
      match op.batch_restaurant_id with
      | some a => popFirstMatch a b.orders
      | none => none
    match continue_batch with
    | some (o, rest) => (some o, op, { b with orders := rest })
    | none =>
      match select_restaurant_for_batch b with
      | none => (none, op, b)
      | some new_rest =>
        let op' := { op with batch_restaurant_id := some new_rest }
        match popFirstMatch new_rest b.orders with
        | some (o, rest) => (some o, op', { b with orders := rest })
        | none => (none, op', b)

/-- `SMO.push_event` (lines 260–261). -/
def SMO.push_event (s : SMO) (ev : Event) : SMO :=
  { s with event_queue := insertEv ev s.event_queue }

/-- `SMO._log` (lines 263–264). -/
def SMO.logEvent (s : SMO) (ev : Event) : SMO :=
  { s with last_events := s.last_events ++ [ev] }

/-- Update the operator found by `_get_free_operator_d2p1`: Python mutates
the object in place; operator ids are unique in every reachable state, so
replacing by id is the same update. -/
def updateOperatorById (ops : List Operator) (oid : ℤ) (x : Operator) :
    List Operator :=
  ops.map fun o => if o.operator_id = oid then x else o

/-- The `ORDER_GENERATED` arm of `SMO.step` (lines 275–319); `s` is the state
after the pop, clock advance and log of `ev`. -/
def SMO.handle_generated (s : SMO) (ev : Event) : SMO :=
  let s := { s with total_generated := s.total_generated + 1 }
  let i := ev.restaurant_id.toNat
  let src := s.restaurants.getD i default
  let (gev, src') := src.generate_event
  let s := { s with restaurants := s.restaurants.set i src' }
  let s := s.push_event gev
  let order : Order :=
    { restaurant_id := ev.restaurant_id, order_id := ev.order_id,
      timestamp := ev.time }
  match s.get_free_operator_d2p1 with
  | some op =>
    let s := s.logEvent
      { time := s.time, etype := .ORDER_TO_OPERATOR,
        restaurant_id := order.restaurant_id, order_id := order.order_id,
        operator_id := op.operator_id, wait_time := 0, buffer_pos := -1 }
    let dt := s.draws 0
    let (op', fev) := op.start_service order s.time dt
    let s := { s with operators := updateOperatorById s.operators op.operator_id op',
                      draws := fun n => s.draws (n + 1) }
    s.push_event fev
  | none =>
    let (pos, b') := s.buffer.add_fifo order
    if pos ≠ -1 then
      ({ s with buffer := b' }).logEvent
        { time := s.time, etype := .ORDER_TO_BUFFER,
          restaurant_id := order.restaurant_id, order_id := order.order_id,
          buffer_pos := pos }
    else
      ({ s with total_rejected := s.total_rejected + 1 }).logEvent
        { time := s.time, etype := .ORDER_REJECTED,
          restaurant_id := order.restaurant_id, order_id := order.order_id,
          buffer_pos := -1 }

/-- The `OPERATOR_FREE` arm of `SMO.step` (lines 321–341). -/
def SMO.handle_operator_free (s : SMO) (ev : Event) : SMO :=
  let j := ev.operator_id.toNat
  let op := (s.operators.getD j default).free
  let s := { s with
    operators := s.operators.set j op,
    total_processed := s.total_processed + 1,
    wait_times := s.wait_times.set ev.restaurant_id.toNat
      ((s.wait_times.getD ev.restaurant_id.toNat []) ++ [ev.wait_time]) }
  match take_order_from_buffer_d2b5 op s.buffer with
  | (some next_order, op', b') =>
    let s := { s with buffer := b' }
    let s := s.logEvent
      { time := s.time, etype := .ORDER_TO_OPERATOR,
        restaurant_id := next_order.restaurant_id,
        order_id := next_order.order_id, operator_id := op'.operator_id,
        wait_time := s.time - next_order.timestamp, buffer_pos := -1 }
    let dt := s.draws 0
    let (op'', fev) := op'.start_service next_order s.time dt
    let s := { s with operators := s.operators.set j op'',
                      draws := fun n => s.draws (n + 1) }
    s.push_event fev
  | (none, op', b') =>
    { s with operators := s.operators.set j op', buffer := b' }

/-- `SMO.step` (lines 267–343): pop the earliest event, advance the clock,
log it, dispatch on its kind; `False` iff the calendar was empty. -/
def SMO.step (s : SMO) : SMO × Bool :=
  match s.event_queue with
  | [] => (s, false)
  | ev :: rest =>
    let s1 := { s with time := ev.time, event_queue := rest,
                       last_events := s.last_events ++ [ev] }
    match ev.etype with
    | .ORDER_GENERATED => (s1.handle_generated ev, true)
    | .OPERATOR_FREE => (s1.handle_operator_free ev, true)
    | _ => (s1, true)

/-- The statistics and event log visible to the presentation layer. -/
def SMO.observables (s : SMO) :
    List Event × ℤ × ℤ × ℤ × List (List ℚ) :=
  (s.last_events, s.total_generated, s.total_processed, s.total_rejected,
   s.wait_times)

/-- Iterated `step` ignoring the returned flag, as the CLI loops do. -/
def SMO.runSteps : ℕ → SMO → SMO
  | 0, s => s
  | n + 1, s => SMO.runSteps n (s.step).1

/-! ## Generic helper lemmas -/

theorem collectExcept_ok_iff {β : Type} (l : List (Except String β)) :
    (∃ v, collectExcept l = .ok v) ↔ ∀ x ∈ l, ∃ b, x = .ok b := by
  induction l with
  | nil => simp [collectExcept]
  | cons x xs ih =>
    unfold collectExcept
    constructor
    · rintro ⟨v, hv⟩
      cases hx : x with
      | error e => rw [hx] at hv; exact Except.noConfusion hv
      | ok b =>
        rw [hx] at hv
        cases hxs : collectExcept xs with
        | error e => rw [hxs] at hv; exact Except.noConfusion hv
        | ok bs =>
          intro a ha
          rcases List.mem_cons.mp ha with rfl | ha
          · exact ⟨b, rfl⟩
          · exact ih.mp ⟨bs, hxs⟩ a ha
    · intro h
      rcases h x (by simp) with ⟨b, hb⟩
      rcases ih.mpr (fun a ha => h a (List.mem_cons_of_mem _ ha)) with ⟨bs, hbs⟩
      exact ⟨b :: bs, by rw [hb, hbs]⟩


theorem countP_set (p : α → Bool) (l : List α) (j : ℕ) (x : α) (hj : j < l.length) :
    (l.set j x).countP p + (if p (l.get ⟨j, hj⟩) then 1 else 0) =
      l.countP p + (if p x then 1 else 0) := by
  induction l generalizing j with
  | nil => simp at hj
  | cons y ys ih =>
    cases j with
    | zero => simp [List.countP_cons]; omega
    | succ j =>
      simp only [List.set_cons_succ, List.countP_cons, List.get_cons_succ]
      have := ih j (by simpa using Nat.lt_of_succ_lt_succ hj)
      omega

theorem find?_eq_some_first {α : Type} {p : α → Bool} {l : List α} {x : α}
    (h : l.find? p = some x) :
    ∃ (j : ℕ) (hj : j < l.length), l.get ⟨j, hj⟩ = x ∧ p x = true ∧
      ∀ (k : ℕ) (hk : k < l.length), k < j → p (l.get ⟨k, hk⟩) = false := by
  induction l with
  | nil => simp at h
  | cons y ys ih =>
    by_cases hy : p y = true
    · rw [List.find?_cons_of_pos _ hy] at h
      obtain rfl : y = x := Option.some.inj h
      exact ⟨0, by simp, rfl, hy, fun k hk hk0 => absurd hk0 (Nat.not_lt_zero k)⟩
    · rw [List.find?_cons_of_neg _ hy] at h
      rcases ih h with ⟨j, hj, hget, hp, hbefore⟩
      refine ⟨j + 1, by simpa using Nat.succ_lt_succ hj, by simpa using hget, hp, ?_⟩
      intro k hk hkj
      cases k with
      | zero => simpa using hy
      | succ k =>
        simpa using hbefore k (by simpa using Nat.lt_of_succ_lt_succ hk)
          (Nat.lt_of_succ_lt_succ hkj)

theorem find?_eq_some_of_first {α : Type} {p : α → Bool} {l : List α} {j : ℕ}
    (hj : j < l.length) (hpj : p (l.get ⟨j, hj⟩) = true)
    (hbefore : ∀ (k : ℕ) (hk : k < l.length), k < j → p (l.get ⟨k, hk⟩) = false) :
    l.find? p = some (l.get ⟨j, hj⟩) := by
  induction l generalizing j with
  | nil => simp at hj
  | cons y ys ih =>
    cases j with
    | zero => simpa using List.find?_cons_of_pos _ (by simpa using hpj)
    | succ j =>
      have hy : p y = false := by simpa using hbefore 0 (by simp) (Nat.succ_pos j)
      rw [List.find?_cons_of_neg _ (by simp [hy])]
      simpa using ih (by simpa using Nat.lt_of_succ_lt_succ hj) (by simpa using hpj)
        fun k hk hkj => by
          simpa using hbefore (k + 1) (by simpa using Nat.succ_lt_succ hk)
            (Nat.succ_lt_succ hkj)

/-! ## Claim C6 -/

/-- Claim C6 (amended): `Operator.free` clears the busy flag and the current
order and changes nothing else; in particular `batch_restaurant_id` persists.
The code performs no busy-time accounting: `Operator` has no `busy_time` or
`last_service_start` field and `free` takes no time argument. -/
theorem C6_release_frame (op : Operator) :
    op.free.busy = false ∧ op.free.current_order = none ∧
    op.free.batch_restaurant_id = op.batch_restaurant_id ∧
    op.free.operator_id = op.operator_id ∧
    op.free.mean_service_time = op.mean_service_time := by
  simp [Operator.free]

/-- Counterexample to claim C6 as stated: releasing a concrete busy operator
produces exactly this state — the complete operator record is five fields,
carrying no `busy_time` accumulator and no `last_service_start`, and `free`
receives no clock value with which `busy_time += now − last_service_start`
could even be computed. -/
theorem C6_release_no_busy_time_counterexample :
    Operator.free
      { operator_id := 0, mean_service_time := 5, busy := true,
        current_order := some { restaurant_id := 1, order_id := 2, timestamp := 3 },
        batch_restaurant_id := some 1 } =
      { operator_id := 0, mean_service_time := 5, busy := false,
        current_order := none, batch_restaurant_id := some 1 } := rfl

/-! ## Claim C2 -/

/-- Counterexample to claim C2: constructing the engine with buffer capacity
`0` (with 3 sources and 2 operators, the defaults) succeeds —
`Buffer.__init__` never validates its capacity, so a non-positive buffer
capacity is not rejected at construction. -/
theorem C2_zero_buffer_capacity_accepted_counterexample :
    (SMO.mk_checked 3 2 5 5 0 fun _ => 1).isOk = true := by decide

/-- Claim C2 (amended): construction fails fast iff the mean service time is
non-positive (and at least one operator is built) or the inter-arrival
interval is non-positive (and at least one source is built); the buffer
capacity is never validated — a buffer of capacity `≤ 0` simply rejects
every order offered to it. -/
theorem C2_mk_checked_ok_iff (nR nO : ℕ) (iv om : ℚ) (bc : ℤ) (d : ℕ → ℚ) :
    (SMO.mk_checked nR nO iv om bc d).isOk = true ↔
      ((nO = 0 ∨ 0 < om) ∧ (nR = 0 ∨ 0 < iv)) := by
  have hopiff :
      (∃ v, collectExcept ((List.range nO).map fun i : ℕ =>
          Operator.mk_checked (i : ℤ) om) = .ok v)
        ↔ (nO = 0 ∨ 0 < om) := by
    rw [collectExcept_ok_iff]
    constructor
    · intro h
      rcases Nat.eq_zero_or_pos nO with h0 | h0
      · exact Or.inl h0
      · rcases h (Operator.mk_checked ((0 : ℕ) : ℤ) om)
          (List.mem_map_of_mem _ (List.mem_range.mpr h0)) with ⟨b, hb⟩
        unfold Operator.mk_checked at hb
        by_cases hom : om ≤ 0
        · simp [hom] at hb
        · exact Or.inr (lt_of_not_le hom)
    · intro h x hx
      rcases List.mem_map.mp hx with ⟨i, _, rfl⟩
      rcases h with h | h
      · subst h; simp at hx
      · exact ⟨_, by unfold Operator.mk_checked; rw [if_neg (not_le_of_lt h)]⟩
  have hriff :
      (∃ v, collectExcept ((List.range nR).map fun i : ℕ =>
          RestaurantSource.mk_checked (i : ℤ) iv (((i : ℚ) * iv) / (nR : ℚ))) = .ok v)
        ↔ (nR = 0 ∨ 0 < iv) := by
    rw [collectExcept_ok_iff]
    constructor
    · intro h
      rcases Nat.eq_zero_or_pos nR with h0 | h0
      · exact Or.inl h0
      · rcases h (RestaurantSource.mk_checked ((0 : ℕ) : ℤ) iv
            ((((0 : ℕ) : ℚ) * iv) / (nR : ℚ)))
          (List.mem_map_of_mem _ (List.mem_range.mpr h0)) with ⟨b, hb⟩
        unfold RestaurantSource.mk_checked at hb
        by_cases hiv : iv ≤ 0
        · simp [hiv] at hb
        · exact Or.inr (lt_of_not_le hiv)
    · intro h x hx
      rcases List.mem_map.mp hx with ⟨i, _, rfl⟩
      rcases h with h | h
      · subst h; simp at hx
      · exact ⟨_, by unfold RestaurantSource.mk_checked; rw [if_neg (not_le_of_lt h)]⟩
  unfold SMO.mk_checked
  cases hA : collectExcept ((List.range nO).map fun i : ℕ =>
      Operator.mk_checked (i : ℤ) om) with
  | error e =>
    have hno : ¬(nO = 0 ∨ 0 < om) := by
      intro hc
      rcases hopiff.mpr hc with ⟨v, hv⟩
      rw [hA] at hv
      exact Except.noConfusion hv
    simp [Except.isOk, Except.toBool, hno]
  | ok v =>
    have hyes : nO = 0 ∨ 0 < om := hopiff.mp ⟨v, hA⟩
    cases hB : collectExcept ((List.range nR).map fun i : ℕ =>
        RestaurantSource.mk_checked (i : ℤ) iv (((i : ℚ) * iv) / (nR : ℚ))) with
    | error e =>
      have hnr : ¬(nR = 0 ∨ 0 < iv) := by
        intro hc
        rcases hriff.mpr hc with ⟨w, hw⟩
        rw [hB] at hw
        exact Except.noConfusion hw
      simp [Except.isOk, Except.toBool, hnr]
    | ok w =>
      have hr : nR = 0 ∨ 0 < iv := hriff.mp ⟨w, hB⟩
      simp [Except.isOk, Except.toBool, hyes, hr]

/-! ## Claim C9 -/

/-- Claim C9: determinism.  Two engines constructed with the same
configuration and the same draw stream (the Python global generator's output
is a pure function of the seed passed to `random.seed`, so an identical
non-`None` seed yields an identical stream) and driven by the same number of
`step()` calls have identical event logs and identical statistics. -/
theorem C9_determinism (nR nO : ℕ) (iv om : ℚ) (bc : ℤ) (d : ℕ → ℚ) (n : ℕ)
    (e₁ e₂ : SMO) (h₁ : e₁ = SMO.init nR nO iv om bc d)
    (h₂ : e₂ = SMO.init nR nO iv om bc d) :
    (SMO.runSteps n e₁).observables = (SMO.runSteps n e₂).observables := by
  subst h₁
  subst h₂
  rfl

/-- Witness for C9 at a concrete configuration. -/
theorem C9_determinism_witness :
    (SMO.runSteps 5 (SMO.init 2 1 5 4 3 fun _ => 2)).observables =
      (SMO.runSteps 5 (SMO.init 2 1 5 4 3 fun _ => 2)).observables :=
  C9_determinism 2 1 5 4 3 (fun _ => 2) 5 _ _ rfl rfl

/-! ## Buffer selection lemmas (Д2Б5 machinery) -/

theorem is_empty_eq_false_iff {b : Buffer} : b.is_empty = false ↔ b.orders ≠ [] := by
  simp [Buffer.is_empty, List.length_eq_zero]

theorem mem_restaurants_present {b : Buffer} {x : ℤ} :
    x ∈ b.restaurants_present ↔ ∃ o ∈ b.orders, o.restaurant_id = x := by
  unfold Buffer.restaurants_present
  rw [List.mem_mergeSort, List.mem_dedup, List.mem_map]

theorem restaurants_present_sorted (b : Buffer) :
    b.restaurants_present.Pairwise fun a c : ℤ => a ≤ c := by
  have h := List.sorted_mergeSort
    (fun a c e (h1 : decide (a ≤ c) = true) (h2 : decide (c ≤ e) = true) => by
      simp only [decide_eq_true_eq] at h1 h2 ⊢
      omega)
    (fun a c => by simpa using Int.le_total a c)
    ((b.orders.map Order.restaurant_id).dedup)
  exact h.imp fun hc => by simpa using hc

theorem restaurants_present_head_min {b : Buffer} {m : ℤ} {t : List ℤ}
    (h : b.restaurants_present = m :: t) :
    ∀ o ∈ b.orders, m ≤ o.restaurant_id := by
  intro o ho
  have hmem : o.restaurant_id ∈ m :: t :=
    h ▸ mem_restaurants_present.mpr ⟨o, ho, rfl⟩
  rcases List.mem_cons.mp hmem with heq | hmem
  · exact le_of_eq heq.symm
  · have := restaurants_present_sorted b
    rw [h] at this
    exact (List.pairwise_cons.mp this).1 _ hmem

theorem restaurants_present_ne_nil {b : Buffer} (h : b.orders ≠ []) :
    b.restaurants_present ≠ [] := by
  rcases List.exists_mem_of_ne_nil _ h with ⟨o, ho⟩
  intro hnil
  have : o.restaurant_id ∈ b.restaurants_present :=
    mem_restaurants_present.mpr ⟨o, ho, rfl⟩
  rw [hnil] at this
  exact List.not_mem_nil _ this

/-! ## Claim C4 -/

/-- Claim C4: the Д2Б5 dispatch of `_take_order_from_buffer_d2b5`.
(1) Empty buffer: no order is taken, the operator keeps its state.
(2) The retained batch-affinity source has a buffered order: the earliest
buffered order of that source is removed (everything before it in the buffer
is from other sources) and the affinity is unchanged.
(3) Otherwise (affinity source absent from the buffer, or no affinity), with
a non-empty buffer: the affinity is reset to the minimal source id present
in the buffer, and that source's earliest buffered order is removed — in
particular with sources 0 and 1 both present and the affinity source absent,
source 0 wins regardless of arrival order. -/
theorem C4_batch_continuation (op : Operator) (b : Buffer) :
    (b.orders = [] → take_order_from_buffer_d2b5 op b = (none, op, b)) ∧
    (∀ a : ℤ, op.batch_restaurant_id = some a →
      (∃ o ∈ b.orders, o.restaurant_id = a) →
      ∃ (o : Order) (l₁ l₂ : List Order),
        b.orders = l₁ ++ o :: l₂ ∧ o.restaurant_id = a ∧
        (∀ x ∈ l₁, x.restaurant_id ≠ a) ∧
        take_order_from_buffer_d2b5 op b =
          (some o, op, { b with orders := l₁ ++ l₂ })) ∧
    (b.orders ≠ [] →
      (∀ a : ℤ, op.batch_restaurant_id = some a →
        ∀ o ∈ b.orders, o.restaurant_id ≠ a) →
      ∃ (m : ℤ) (o : Order) (l₁ l₂ : List Order),
        (∃ o' ∈ b.orders, o'.restaurant_id = m) ∧
        (∀ o' ∈ b.orders, m ≤ o'.restaurant_id) ∧
        b.orders = l₁ ++ o :: l₂ ∧ o.restaurant_id = m ∧
        (∀ x ∈ l₁, x.restaurant_id ≠ m) ∧
        take_order_from_buffer_d2b5 op b =
          (some o, { op with batch_restaurant_id := some m },
           { b with orders := l₁ ++ l₂ })) := by
  refine ⟨?_, ?_, ?_⟩
  · intro h
    unfold take_order_from_buffer_d2b5
    rw [if_pos (by simp [Buffer.is_empty, h])]
  · rintro a ha ⟨o, ho, hrid⟩
    have hne : b.orders ≠ [] := by
      intro hnil
      rw [hnil] at ho
      exact (List.not_mem_nil o) ho
    rcases popFirstMatch_isSome_of_mem ho hrid with ⟨o', l', hpop⟩
    rcases popFirstMatch_eq_some hpop with ⟨l₁, l₂, h1, h2, h3, h4⟩
    refine ⟨o', l₁, l₂, h1, h3, h4, ?_⟩
    unfold take_order_from_buffer_d2b5
    rw [if_neg (by simp [is_empty_eq_false_iff.mpr hne])]
    rw [ha]
    simp only [hpop]
    rw [h2]
  · intro hne hmiss
    rcases hpres : b.restaurants_present with _ | ⟨m, t⟩
    · exact absurd hpres (restaurants_present_ne_nil hne)
    have hmem : ∃ o' ∈ b.orders, o'.restaurant_id = m :=
      mem_restaurants_present.mp (hpres ▸ List.mem_cons_self m t)
    rcases hmem with ⟨o', ho', hrid'⟩
    rcases popFirstMatch_isSome_of_mem ho' hrid' with ⟨o, l', hpop⟩
    rcases popFirstMatch_eq_some hpop with ⟨l₁, l₂, h1, h2, h3, h4⟩
    refine ⟨m, o, l₁, l₂, ⟨o', ho', hrid'⟩,
      restaurants_present_head_min hpres, h1, h3, h4, ?_⟩
    unfold take_order_from_buffer_d2b5
    rw [if_neg (by simp [is_empty_eq_false_iff.mpr hne])]
    have hcont :
        (match op.batch_restaurant_id with
          | some a => popFirstMatch a b.orders
          | none => none) = (none : Option (Order × List Order)) := by
      cases hb : op.batch_restaurant_id with
      | none => rfl
      | some a => exact popFirstMatch_eq_none.mpr (hmiss a hb)
    rw [hcont]
    unfold select_restaurant_for_batch
    rw [hpres]
    simp only [hpop]
    rw [h2]

/-- Witness for C4: a buffer holding orders of sources 1 and 0 (arrived in
that order) and an operator whose affinity source 5 is absent — the dispatch
resets the affinity to source 0 (the minimum present) and serves its order. -/
theorem C4_batch_continuation_witness :
    take_order_from_buffer_d2b5
        { operator_id := 0, mean_service_time := 5, busy := false,
          current_order := none, batch_restaurant_id := some 5 }
        { capacity := 4,
          orders := [{ restaurant_id := 1, order_id := 0, timestamp := 0 },
                     { restaurant_id := 0, order_id := 0, timestamp := 1 }] } =
      (some { restaurant_id := 0, order_id := 0, timestamp := 1 },
       { operator_id := 0, mean_service_time := 5, busy := false,
         current_order := none, batch_restaurant_id := some 0 },
       { capacity := 4,
         orders := [{ restaurant_id := 1, order_id := 0, timestamp := 0 }] }) := by
  have h := (C4_batch_continuation
      { operator_id := 0, mean_service_time := 5, busy := false,
        current_order := none, batch_restaurant_id := some 5 }
      { capacity := 4,
        orders := [{ restaurant_id := 1, order_id := 0, timestamp := 0 },
                   { restaurant_id := 0, order_id := 0, timestamp := 1 }] }).2.2
    (by decide)
    (by
      rintro a ha o ho
      obtain rfl : (5 : ℤ) = a := Option.some.inj ha
      revert ho
      revert o
      decide)
  decide

/-! ## Step unfolding lemmas -/

theorem step_eq_gen (s : SMO) (ev : Event) (rest : List Event)
    (hq : s.event_queue = ev :: rest) (het : ev.etype = .ORDER_GENERATED) :
    s.step = (SMO.handle_generated
      { s with
        time := ev.time, event_queue := rest,
        last_events := s.last_events ++ [ev] } ev, true) := by
  unfold SMO.step
  rw [hq]
  simp only []
  rw [het]

theorem step_eq_free (s : SMO) (ev : Event) (rest : List Event)
    (hq : s.event_queue = ev :: rest) (het : ev.etype = .OPERATOR_FREE) :
    s.step = (SMO.handle_operator_free
      { s with
        time := ev.time, event_queue := rest,
        last_events := s.last_events ++ [ev] } ev, true) := by
  unfold SMO.step
  rw [hq]
  simp only []
  rw [het]

theorem mergeSort_operators_eq_self {ops : List Operator}
    (hid : ∀ (k : ℕ) (hk : k < ops.length),
      (ops.get ⟨k, hk⟩).operator_id = (k : ℤ)) :
    (ops.mergeSort fun a b => decide (a.operator_id ≤ b.operator_id)) = ops := by
  apply List.mergeSort_of_sorted
  rw [List.pairwise_iff_get]
  intro i j hij
  have h1 := hid i i.isLt
  have h2 := hid j j.isLt
  simp only [h1, h2, decide_eq_true_eq]
  exact_mod_cast le_of_lt hij

theorem updateOperatorById_eq_set {ops : List Operator}
    (hid : ∀ (k : ℕ) (hk : k < ops.length),
      (ops.get ⟨k, hk⟩).operator_id = (k : ℤ))
    (j : ℕ) (hj : j < ops.length) (x : Operator) :
    updateOperatorById ops ((ops.get ⟨j, hj⟩).operator_id) x = ops.set j x := by
  apply List.ext_getElem
  · simp [updateOperatorById]
  · intro k h1 h2
    have hk : k < ops.length := by simpa [updateOperatorById] using h1
    simp only [updateOperatorById, List.getElem_map, List.getElem_set]
    have hgk : ops[k].operator_id = (k : ℤ) := by
      simpa [List.get_eq_getElem] using hid k hk
    have hgj : (ops.get ⟨j, hj⟩).operator_id = (j : ℤ) := hid j hj
    simp only [hgk, hgj]
    by_cases hkj : k = j
    · subst hkj
      simp
    · rw [if_neg (by exact_mod_cast hkj), if_neg (fun h => hkj h.symm)]


/-! ## Claim C5 -/

/-- Claim C5: on an arrival event, if some server is idle the engine assigns
the new order to the idle server with the smallest id (Д2П1), starts service
immediately with `wait_time = 0` (logging the assignment) and schedules the
completion event; the order reaches the buffer only when every server is
busy. -/
theorem C5_arrival_lowest_idle (s : SMO) (ev : Event) (rest : List Event)
    (hq : s.event_queue = ev :: rest) (het : ev.etype = .ORDER_GENERATED)
    (hid : ∀ (k : ℕ) (hk : k < s.operators.length),
      (s.operators.get ⟨k, hk⟩).operator_id = (k : ℤ)) :
    (∀ (j : ℕ) (hj : j < s.operators.length),
      (s.operators.get ⟨j, hj⟩).busy = false →
      (∀ (k : ℕ) (hk : k < s.operators.length), k < j →
        (s.operators.get ⟨k, hk⟩).busy = true) →
      ∃ opNew : Operator,
        (s.step).1.operators = s.operators.set j opNew ∧
        opNew.busy = true ∧ opNew.operator_id = (j : ℤ) ∧
        opNew.current_order =
          some { restaurant_id := ev.restaurant_id, order_id := ev.order_id, timestamp := ev.time } ∧
        (s.step).1.buffer = s.buffer ∧
        (∃ fev ∈ (s.step).1.event_queue, fev.etype = .OPERATOR_FREE ∧
          fev.operator_id = (j : ℤ) ∧ fev.wait_time = 0 ∧
          fev.time = ev.time + s.draws 0) ∧
        (∃ aev : Event, (s.step).1.last_events = s.last_events ++ [ev, aev] ∧
          aev.etype = .ORDER_TO_OPERATOR ∧ aev.operator_id = (j : ℤ) ∧
          aev.wait_time = 0)) ∧
    ((∀ op ∈ s.operators, op.busy = true) →
      (s.step).1.operators = s.operators ∧
      (s.step).1.buffer =
        (s.buffer.add_fifo { restaurant_id := ev.restaurant_id, order_id := ev.order_id, timestamp := ev.time }).2) := by
  rw [step_eq_gen s ev rest hq het]
  constructor
  · intro j hj hidle hleast
    have hsort := mergeSort_operators_eq_self hid
    have hfind : s.operators.find? (fun op => !op.busy) =
        some (s.operators.get ⟨j, hj⟩) :=
      find?_eq_some_of_first hj (by simpa using hidle)
        (fun k hk hkj => by simpa using hleast k hk hkj)
    refine ⟨{ (s.operators.get ⟨j, hj⟩) with
        busy := true,
        current_order := some { restaurant_id := ev.restaurant_id, order_id := ev.order_id, timestamp := ev.time },
        batch_restaurant_id := some ev.restaurant_id }, ?_, rfl, hid j hj, rfl, ?_, ?_, ?_⟩
    · simp only [SMO.handle_generated, SMO.get_free_operator_d2p1, SMO.push_event,
        SMO.logEvent, hsort, hfind, Operator.start_service]
      rw [updateOperatorById_eq_set hid j hj]
    · simp [SMO.handle_generated, SMO.get_free_operator_d2p1, SMO.push_event,
        SMO.logEvent, hsort, hfind, Operator.start_service]
    · simp only [SMO.handle_generated, SMO.get_free_operator_d2p1, SMO.push_event,
        SMO.logEvent, hsort, hfind, Operator.start_service]
      exact ⟨_, mem_insertEv.mpr (Or.inl rfl), rfl, hid j hj, by simp, rfl⟩
    · simp only [SMO.handle_generated, SMO.get_free_operator_d2p1, SMO.push_event,
        SMO.logEvent, hsort, hfind, Operator.start_service]
      refine ⟨{ time := ev.time, etype := .ORDER_TO_OPERATOR, restaurant_id := ev.restaurant_id, order_id := ev.order_id, operator_id := (s.operators.get ⟨j, hj⟩).operator_id, buffer_pos := -1, wait_time := 0 }, by simp, rfl, hid j hj, rfl⟩
  · intro hbusy
    have hfind : (s.operators.mergeSort fun a b =>
        decide (a.operator_id ≤ b.operator_id)).find? (fun op => !op.busy) = none := by
      rw [List.find?_eq_none]
      intro x hx
      simp [hbusy x (List.mem_mergeSort.mp hx)]
    by_cases hfull : s.buffer.is_full = true
    · constructor <;>
        simp [SMO.handle_generated, SMO.get_free_operator_d2p1, SMO.push_event,
          SMO.logEvent, hfind, Buffer.add_fifo, hfull]
    · have hne : ((s.buffer.orders.length : ℤ) ≠ -1) := by
        have : (0 : ℤ) ≤ (s.buffer.orders.length : ℤ) := Int.natCast_nonneg _
        omega
      constructor <;>
        simp [SMO.handle_generated, SMO.get_free_operator_d2p1, SMO.push_event,
          SMO.logEvent, hfind, Buffer.add_fifo, hfull, hne]


/-- Witness for C5: a fresh 1-source/2-operator engine; the first arrival is
assigned to operator 0 (the lowest-id idle one), with the buffer untouched. -/
theorem C5_arrival_lowest_idle_witness :
    ((SMO.init 1 2 5 5 3 fun _ => 2).step).1.operators =
      [{ operator_id := 0, mean_service_time := 5, busy := true,
         current_order := some { restaurant_id := 0, order_id := 0, timestamp := 0 },
         batch_restaurant_id := some 0 },
       { operator_id := 1, mean_service_time := 5, busy := false,
         current_order := none, batch_restaurant_id := none }] ∧
    ((SMO.init 1 2 5 5 3 fun _ => 2).step).1.buffer = { capacity := 3, orders := [] } := by
  have h := (C5_arrival_lowest_idle (SMO.init 1 2 5 5 3 fun _ => 2)
      { time := 0, etype := .ORDER_GENERATED, restaurant_id := 0, order_id := 0 } []
      (by decide) rfl
      (by
        intro k hk
        have hk2 : k < 2 := by simpa [SMO.init] using hk
        have : k = 0 ∨ k = 1 := by omega
        rcases this with rfl | rfl <;> simp [SMO.init])).1 0 (by decide) (by decide)
    (fun k hk h => absurd h (Nat.not_lt_zero k))
  decide


/-! ## Claim C3 -/

/-- Claim C3 (amended): on an arrival with no idle server and a full buffer,
the engine increments the global rejection count, records an
`ORDER_REJECTED` event carrying the order's source in the log, and discards
the order: buffer, operators, per-source statistics and the processed count
are untouched, and the only event scheduled is the source's next arrival
(the rejected order is never re-inserted or retried).  The engine keeps no
per-source rejection counter; the log event is the only per-source record of
the rejection. -/
theorem C3_rejection (s : SMO) (ev : Event) (rest : List Event)
    (hq : s.event_queue = ev :: rest) (het : ev.etype = .ORDER_GENERATED)
    (hbusy : ∀ op ∈ s.operators, op.busy = true)
    (hfull : s.buffer.is_full = true) :
    (s.step).1.total_rejected = s.total_rejected + 1 ∧
    (s.step).1.total_generated = s.total_generated + 1 ∧
    (s.step).1.buffer = s.buffer ∧
    (s.step).1.operators = s.operators ∧
    (s.step).1.wait_times = s.wait_times ∧
    (s.step).1.total_processed = s.total_processed ∧
    (s.step).1.last_events = s.last_events ++
      [ev, { time := ev.time, etype := .ORDER_REJECTED, restaurant_id := ev.restaurant_id, order_id := ev.order_id, operator_id := -1, buffer_pos := -1, wait_time := 0 }] ∧
    (s.step).1.event_queue =
      insertEv ((s.restaurants.getD ev.restaurant_id.toNat default).generate_event.1) rest := by
  rw [step_eq_gen s ev rest hq het]
  have hfind : (s.operators.mergeSort fun a b =>
      decide (a.operator_id ≤ b.operator_id)).find? (fun op => !op.busy) = none := by
    rw [List.find?_eq_none]
    intro x hx
    simp [hbusy x (List.mem_mergeSort.mp hx)]
  refine ⟨?_, ?_, ?_, ?_, ?_, ?_, ?_, ?_⟩ <;>
    simp [SMO.handle_generated, SMO.get_free_operator_d2p1, SMO.push_event,
      SMO.logEvent, hfind, Buffer.add_fifo, hfull, RestaurantSource.generate_event]

/-- Counterexample to claim C3 as stated: drive a 1-source, 1-operator,
capacity-0 engine two steps (the first arrival seizes the operator until
t = 100, the second at t = 1 is rejected).  A source-0 order has been
rejected — witnessed by the global counter and by the log — yet the engine's
only per-source statistic, `wait_times`, is unchanged: the code maintains no
per-source rejection count that could have been incremented. -/
theorem C3_no_per_source_rejected_counterexample :
    (SMO.runSteps 2 (SMO.init 1 1 1 5 0 fun _ => 100)).total_rejected = 1 ∧
    (SMO.runSteps 2 (SMO.init 1 1 1 5 0 fun _ => 100)).wait_times = [[]] ∧
    ((SMO.runSteps 2 (SMO.init 1 1 1 5 0 fun _ => 100)).last_events.countP
      fun e => decide (e.etype = .ORDER_REJECTED ∧ e.restaurant_id = 0)) = 1 := by
  decide

/-- Witness for C3 at a concrete reachable state: the second arrival of the
capacity-0 scenario is rejected and bumps the global counter. -/
theorem C3_rejection_witness :
    ((SMO.runSteps 1 (SMO.init 1 1 1 5 0 fun _ => 100)).step).1.total_rejected =
      (SMO.runSteps 1 (SMO.init 1 1 1 5 0 fun _ => 100)).total_rejected + 1 := by
  have h := C3_rejection (SMO.runSteps 1 (SMO.init 1 1 1 5 0 fun _ => 100))
      { time := 1, etype := .ORDER_GENERATED, restaurant_id := 0, order_id := 1 }
      [{ time := 100, etype := .OPERATOR_FREE, restaurant_id := 0, order_id := 0, operator_id := 0, buffer_pos := -1, wait_time := 0 }]
      (by decide) rfl (by decide) (by decide)
  exact h.1


/-! ## Claim C7: FIFO within a source -/

/-- An arbitrary client operation on a `Buffer`: `add` is `add_fifo`,
`popFirst` is `pop_first`, `popByRest` is `pop_first_by_restaurant`. -/
inductive BufOp
  | add (o : Order)
  | popFirst
  | popByRest (rid : ℤ)

/-- Run a sequence of buffer operations, recording the successfully inserted
orders (`adds`) and the removed orders (`rems`) in order. -/
def runBufOps (b : Buffer) (adds rems : List Order) :
    List BufOp → Buffer × List Order × List Order
  | [] => (b, adds, rems)
  | op :: ops =>
    match op with
    | .add o =>
      let (pos, b') := b.add_fifo o
      if pos ≠ -1 then runBufOps b' (adds ++ [o]) rems ops
      else runBufOps b' adds rems ops
    | .popFirst =>
      match b.pop_first with
      | (some o, b') => runBufOps b' adds (rems ++ [o]) ops
      | (none, b') => runBufOps b' adds rems ops
    | .popByRest rid =>
      match b.pop_first_by_restaurant rid with
      | (some o, b') => runBufOps b' adds (rems ++ [o]) ops
      | (none, b') => runBufOps b' adds rems ops

/-- The per-source ledger invariant: for every source, the removals so far
followed by the current buffer content equal the successful insertions. -/
theorem runBufOps_ledger (rid : ℤ) (ops : List BufOp) :
    ∀ (b : Buffer) (adds rems : List Order),
      rems.filter (fun o => decide (o.restaurant_id = rid)) ++
          b.orders.filter (fun o => decide (o.restaurant_id = rid)) =
        adds.filter (fun o => decide (o.restaurant_id = rid)) →
      ((runBufOps b adds rems ops).2.2).filter (fun o => decide (o.restaurant_id = rid)) ++
          ((runBufOps b adds rems ops).1).orders.filter (fun o => decide (o.restaurant_id = rid)) =
        ((runBufOps b adds rems ops).2.1).filter (fun o => decide (o.restaurant_id = rid)) := by
  induction ops with
  | nil => intro b adds rems h; exact h
  | cons op ops ih =>
    intro b adds rems h
    cases op with
    | add o =>
      by_cases hfull : b.is_full = true
      · simpa [runBufOps, Buffer.add_fifo, hfull] using ih b adds rems h
      · have hne : ((b.orders.length : ℤ) ≠ -1) := by
          have : (0 : ℤ) ≤ (b.orders.length : ℤ) := Int.natCast_nonneg _
          omega
        have h' : rems.filter (fun o => decide (o.restaurant_id = rid)) ++
            (b.orders ++ [o]).filter (fun o => decide (o.restaurant_id = rid)) =
            (adds ++ [o]).filter (fun o => decide (o.restaurant_id = rid)) := by
          simp only [List.filter_append, ← List.append_assoc, h]
        simpa [runBufOps, Buffer.add_fifo, hfull, hne] using
          ih { b with orders := b.orders ++ [o] } (adds ++ [o]) rems h'
    | popFirst =>
      cases horders : b.orders with
      | nil => simpa [runBufOps, Buffer.pop_first, horders] using ih b adds rems h
      | cons o t =>
        rw [horders] at h
        have h' : (rems ++ [o]).filter (fun o => decide (o.restaurant_id = rid)) ++
            t.filter (fun o => decide (o.restaurant_id = rid)) =
            adds.filter (fun o => decide (o.restaurant_id = rid)) := by
          by_cases hp : o.restaurant_id = rid
          · simpa [List.filter_append, List.filter_cons, hp, List.append_assoc] using h
          · simpa [List.filter_append, List.filter_cons, hp] using h
        simpa [runBufOps, Buffer.pop_first, horders] using
          ih { b with orders := t } adds (rems ++ [o]) h'
    | popByRest rid' =>
      cases hpop : popFirstMatch rid' b.orders with
      | none =>
        simpa [runBufOps, Buffer.pop_first_by_restaurant, hpop] using ih b adds rems h
      | some p =>
        rcases p with ⟨o, rest'⟩
        rcases popFirstMatch_eq_some hpop with ⟨l₁, l₂, hb, hrest, hrid, hl₁⟩
        rw [hb] at h
        have h' : (rems ++ [o]).filter (fun o => decide (o.restaurant_id = rid)) ++
            rest'.filter (fun o => decide (o.restaurant_id = rid)) =
            adds.filter (fun o => decide (o.restaurant_id = rid)) := by
          subst hrest
          by_cases hp : o.restaurant_id = rid
          · have hsame : rid' = rid := by rw [← hrid]; exact hp
            have hl1 : l₁.filter (fun x => decide (x.restaurant_id = rid)) = [] := by
              apply List.filter_eq_nil_iff.mpr
              intro x hx
              simpa [hsame] using hl₁ x hx
            simpa [List.filter_append, List.filter_cons, hp, hl1,
              List.append_assoc] using h
          · simpa [List.filter_append, List.filter_cons, hp] using h
        simpa [runBufOps, Buffer.pop_first_by_restaurant, hpop] using
          ih { b with orders := rest' } adds (rems ++ [o]) h'

theorem mem_of_getLast?_eq_some {α : Type} {l : List α} {a : α}
    (h : l.getLast? = some a) : a ∈ l := by
  cases l with
  | nil => simp at h
  | cons x xs =>
    have h3 := List.getLast?_eq_getLast (x :: xs) (by simp)
    rw [h3] at h
    have ha : (x :: xs).getLast (by simp) = a := by simpa using h
    rw [← ha]
    exact List.getLast_mem _

theorem prefix_section {α : Type} [DecidableEq α] {pre post m₁ m₂ m₃ : List α}
    {A B : α} (h : pre ++ post = m₁ ++ A :: m₂ ++ B :: m₃)
    (hnd : (m₁ ++ A :: m₂ ++ B :: m₃).Nodup) (hB : B ∈ pre) :
    ∃ n₃, pre = m₁ ++ A :: m₂ ++ B :: n₃ := by
  have h' : pre ++ post = (m₁ ++ A :: m₂ ++ [B]) ++ m₃ := by
    rw [h]
    simp
  rcases List.append_eq_append_iff.mp h' with ⟨a', ha1, ha2⟩ | ⟨c', hc1, hc2⟩
  · cases a' with
    | nil =>
      refine ⟨[], ?_⟩
      rw [List.append_nil] at ha1
      rw [← ha1]
    | cons x xs =>
      exfalso
      have hndu : (m₁ ++ A :: m₂ ++ [B]).Nodup := by
        have hall : ((m₁ ++ A :: m₂ ++ [B]) ++ m₃).Nodup := by simpa using hnd
        exact hall.of_append_left
      have hcount : (m₁ ++ A :: m₂ ++ [B]).count B ≤ 1 :=
        List.nodup_iff_count_le_one.mp hndu B
      have hgl : (m₁ ++ A :: m₂ ++ [B]).getLast? = some B := by
        have : (m₁ ++ A :: m₂ ++ [B]) = (m₁ ++ A :: m₂) ++ [B] := by simp
        rw [this, List.getLast?_concat]
      have hgl2 : (pre ++ x :: xs).getLast? = some B := by rw [← ha1]; exact hgl
      have hBlast : B ∈ x :: xs := by
        rw [List.getLast?_append] at hgl2
        cases hx : (x :: xs).getLast? with
        | none =>
          rw [hx] at hgl2
          have h3 := List.getLast?_eq_getLast (x :: xs) (by simp)
          rw [hx] at h3
          exact Option.noConfusion h3
        | some c =>
          rw [hx] at hgl2
          have : c = B := by simpa using hgl2
          exact this ▸ mem_of_getLast?_eq_some hx
      have h1 : 0 < pre.count B := List.count_pos_iff.mpr hB
      have h2 : 0 < (x :: xs).count B := List.count_pos_iff.mpr hBlast
      have h3 : 2 ≤ (m₁ ++ A :: m₂ ++ [B]).count B := by
        rw [ha1, List.count_append]
        omega
      omega
  · refine ⟨c', ?_⟩
    rw [hc1]
    simp


/-- Claim C7: FIFO within a source.  For any interleaving of `add_fifo`,
`pop_first` and `pop_first_by_restaurant` starting from an empty buffer, if
orders `A` and `B` of the same source are both successfully inserted with
`A` inserted first (`A` precedes `B` in the source's sequence of successful
insertions), that source's inserted orders are pairwise distinct, and `B` is
removed at some point, then `A` was removed strictly before `B`: among the
removals of that source, `A` occurs before `B`. -/
theorem C7_fifo_within_source (cap : ℤ) (ops : List BufOp) (rid : ℤ)
    (A B : Order) (m₁ m₂ m₃ : List Order)
    (hadds : ((runBufOps ⟨cap, []⟩ [] [] ops).2.1).filter
        (fun o => decide (o.restaurant_id = rid)) = m₁ ++ A :: m₂ ++ B :: m₃)
    (hnd : (m₁ ++ A :: m₂ ++ B :: m₃).Nodup)
    (hB : B ∈ (runBufOps ⟨cap, []⟩ [] [] ops).2.2) :
    ∃ n₃, ((runBufOps ⟨cap, []⟩ [] [] ops).2.2).filter
        (fun o => decide (o.restaurant_id = rid)) = m₁ ++ A :: m₂ ++ B :: n₃ := by
  have hledger := runBufOps_ledger rid ops ⟨cap, []⟩ [] [] (by simp)
  rw [hadds] at hledger
  have hpB : (fun o => decide (o.restaurant_id = rid)) B = true := by
    have hmem : B ∈ m₁ ++ A :: m₂ ++ B :: m₃ := by simp
    rw [← hadds] at hmem
    exact (List.mem_filter.mp hmem).2
  have hBf : B ∈ ((runBufOps ⟨cap, []⟩ [] [] ops).2.2).filter
      (fun o => decide (o.restaurant_id = rid)) :=
    List.mem_filter.mpr ⟨hB, hpB⟩
  exact prefix_section hledger hnd hBf

/-- Witness for C7: source 0 inserts two orders with a source-1 order in
between; the source-1 order is removed by affinity first, then the two
source-0 orders leave in insertion order. -/
theorem C7_fifo_within_source_witness :
    ((runBufOps ⟨5, []⟩ [] []
        [BufOp.add ⟨0, 0, 0⟩, BufOp.add ⟨1, 0, 0⟩, BufOp.add ⟨0, 1, 0⟩,
         BufOp.popByRest 1, BufOp.popFirst, BufOp.popByRest 0]).2.2).filter
      (fun o => decide (o.restaurant_id = 0)) =
      [⟨0, 0, 0⟩, ⟨0, 1, 0⟩] := by
  have h := C7_fifo_within_source 5
      [BufOp.add ⟨0, 0, 0⟩, BufOp.add ⟨1, 0, 0⟩, BufOp.add ⟨0, 1, 0⟩,
       BufOp.popByRest 1, BufOp.popFirst, BufOp.popByRest 0] 0
      ⟨0, 0, 0⟩ ⟨0, 1, 0⟩ [] [] [] (by decide) (by decide) (by decide)
  decide


/-! ## Reachable-state invariant (claims C1, C8, C10) -/

/-- Number of busy operators (orders in service). -/
def busyCount (ops : List Operator) : ℕ := ops.countP (·.busy)

/-- Number of pending generation events of source `i` in the calendar. -/
def genCount (q : List Event) (i : ℤ) : ℕ :=
  q.countP fun ev => decide (ev.etype = .ORDER_GENERATED ∧ ev.restaurant_id = i)

/-- Number of pending completion events of operator `j` in the calendar. -/
def freeCount (q : List Event) (j : ℤ) : ℕ :=
  q.countP fun ev => decide (ev.etype = .OPERATOR_FREE ∧ ev.operator_id = j)

/-- The inductive invariant of the engine, for a configuration with `nR`
sources, `nO` operators and inter-arrival interval `iv`. -/
structure Inv (nR nO : ℕ) (iv : ℚ) (s : SMO) : Prop where
  iv_pos : 0 < iv
  draws_nonneg : ∀ n, 0 ≤ s.draws n
  ops_len : s.operators.length = nO
  ops_id : ∀ (k : ℕ) (hk : k < s.operators.length),
    (s.operators.get ⟨k, hk⟩).operator_id = (k : ℤ)
  rest_len : s.restaurants.length = nR
  rest_id : ∀ (i : ℕ) (hi : i < s.restaurants.length),
    (s.restaurants.get ⟨i, hi⟩).restaurant_id = (i : ℤ)
  rest_interval : ∀ r ∈ s.restaurants, r.interval = iv
  wait_len : s.wait_times.length = nR
  q_types : ∀ ev ∈ s.event_queue,
    ev.etype = .ORDER_GENERATED ∨ ev.etype = .OPERATOR_FREE
  q_gen_valid : ∀ ev ∈ s.event_queue, ev.etype = .ORDER_GENERATED →
    0 ≤ ev.restaurant_id ∧ ev.restaurant_id < (nR : ℤ)
  q_free_valid : ∀ ev ∈ s.event_queue, ev.etype = .OPERATOR_FREE →
    (0 ≤ ev.operator_id ∧ ev.operator_id < (nO : ℤ)) ∧
      (0 ≤ ev.restaurant_id ∧ ev.restaurant_id < (nR : ℤ))
  gen_one : ∀ i : ℕ, i < nR → genCount s.event_queue (i : ℤ) = 1
  free_busy : ∀ (j : ℕ) (hj : j < s.operators.length),
    freeCount s.event_queue (j : ℤ) =
      (if (s.operators.get ⟨j, hj⟩).busy then 1 else 0)
  buf_valid : ∀ o ∈ s.buffer.orders,
    0 ≤ o.restaurant_id ∧ o.restaurant_id < (nR : ℤ)
  conserve : s.total_generated = s.total_processed + s.total_rejected +
    (s.buffer.orders.length : ℤ) + (busyCount s.operators : ℤ)
  time_sorted : s.event_queue.Pairwise fun a b => a.time ≤ b.time
  time_lb : ∀ ev ∈ s.event_queue, s.time ≤ ev.time
  next_time_eq : ∀ ev ∈ s.event_queue, ev.etype = .ORDER_GENERATED →
    ev.time + iv = (s.restaurants.getD ev.restaurant_id.toNat default).next_time

theorem foldl_insertEv_perm (l acc : List Event) :
    List.Perm (l.foldl (fun q e => insertEv e q) acc) (l ++ acc) := by
  induction l generalizing acc with
  | nil => simp
  | cons e t ih =>
    have h1 : (e :: t).foldl (fun q e => insertEv e q) acc =
        t.foldl (fun q e => insertEv e q) (insertEv e acc) := rfl
    rw [h1]
    refine (ih (insertEv e acc)).trans ?_
    refine (List.Perm.append_left t (insertEv_perm e acc)).trans ?_
    exact List.perm_middle

theorem foldl_insertEv_pairwise (l : List Event) (acc : List Event)
    (hacc : acc.Pairwise fun a b => a.time ≤ b.time) :
    (l.foldl (fun q e => insertEv e q) acc).Pairwise fun a b => a.time ≤ b.time := by
  induction l generalizing acc with
  | nil => exact hacc
  | cons e t ih => exact ih (insertEv e acc) (pairwise_time_insertEv hacc)

theorem countP_range_cast_eq_one {nR i : ℕ} (hi : i < nR) :
    (List.range nR).countP (fun i' : ℕ => decide ((i' : ℤ) = (i : ℤ))) = 1 := by
  induction nR with
  | zero => omega
  | succ n ihn =>
    rw [List.range_succ, List.countP_append]
    by_cases h : i = n
    · subst h
      have h0 : (List.range i).countP (fun i' : ℕ => decide ((i' : ℤ) = (i : ℤ))) = 0 := by
        rw [List.countP_eq_zero]
        intro a ha
        have : a < i := List.mem_range.mp ha
        simp only [decide_eq_true_eq]
        omega
      have h1 : ([i] : List ℕ).countP (fun i' : ℕ => decide ((i' : ℤ) = (i : ℤ))) = 1 := by
        simp
      rw [h0, h1]
    · have hin : i < n := by omega
      have h0 : ([n] : List ℕ).countP (fun i' : ℕ => decide ((i' : ℤ) = (i : ℤ))) = 0 := by
        rw [List.countP_eq_zero]
        intro a ha
        simp only [List.mem_singleton] at ha
        subst ha
        simp only [decide_eq_true_eq]
        omega
      simp only [h0, ihn hin]


theorem getD_map_range {α : Type} [Inhabited α] (n i : ℕ) (f : ℕ → α)
    (hi : i < n) : ((List.range n).map f).getD i default = f i := by
  rw [List.getD_eq_getElem?_getD, List.getElem?_eq_getElem (by simpa using hi)]
  simp

/-- The invariant holds for a freshly constructed engine. -/
theorem inv_init (nR nO : ℕ) (iv om : ℚ) (bc : ℤ) (d : ℕ → ℚ)
    (hiv : 0 < iv) (hd : ∀ n, 0 ≤ d n) :
    Inv nR nO iv (SMO.init nR nO iv om bc d) := by
  have hqmem : ∀ ev ∈ (SMO.init nR nO iv om bc d).event_queue,
      ∃ i : ℕ, i < nR ∧ ev =
        { time := ((i : ℚ) * iv) / (nR : ℚ), etype := .ORDER_GENERATED,
          restaurant_id := (i : ℤ), order_id := 0 } := by
    intro ev hev
    simp only [SMO.init, initial_restaurants, List.map_map] at hev
    rw [(foldl_insertEv_perm _ _).mem_iff, List.append_nil, List.mem_map] at hev
    rcases hev with ⟨i, hi, rfl⟩
    exact ⟨i, List.mem_range.mp hi, rfl⟩
  refine ⟨hiv, hd, ?_, ?_, ?_, ?_, ?_, ?_, ?_, ?_, ?_, ?_, ?_, ?_, ?_, ?_, ?_, ?_⟩
  · simp [SMO.init]
  · intro k hk
    simp only [SMO.init] at hk ⊢
    simp only [List.length_map, List.length_range] at hk
    simp [List.get_eq_getElem]
  · simp [SMO.init, initial_restaurants]
  · intro i hi
    simp only [SMO.init, initial_restaurants, List.map_map] at hi ⊢
    simp only [List.length_map, List.length_range] at hi
    simp [List.get_eq_getElem, RestaurantSource.generate_event]
  · intro r hr
    simp only [SMO.init, initial_restaurants, List.map_map, List.mem_map] at hr
    rcases hr with ⟨i, _, rfl⟩
    simp [RestaurantSource.generate_event]
  · simp [SMO.init]
  · intro ev hev
    rcases hqmem ev hev with ⟨i, hi, rfl⟩
    exact Or.inl rfl
  · intro ev hev _
    rcases hqmem ev hev with ⟨i, hi, rfl⟩
    constructor
    · show (0 : ℤ) ≤ (i : ℤ)
      exact Int.natCast_nonneg i
    · show ((i : ℤ)) < (nR : ℤ)
      exact_mod_cast hi
  · intro ev hev hfree
    rcases hqmem ev hev with ⟨i, hi, rfl⟩
    exact absurd hfree (by simp)
  · intro i hi
    unfold genCount
    simp only [SMO.init, initial_restaurants, List.map_map]
    rw [(foldl_insertEv_perm _ _).countP_eq, List.append_nil, List.countP_map]
    have heq : ((fun ev : Event => decide (ev.etype = .ORDER_GENERATED ∧
        ev.restaurant_id = (i : ℤ))) ∘ (fun r : RestaurantSource =>
          r.generate_event.1) ∘ (fun i' : ℕ =>
          ({ restaurant_id := (i' : ℤ), interval := iv, generated := 0,
             next_time := ((i' : ℚ) * iv) / (nR : ℚ) } : RestaurantSource))) =
        fun i' : ℕ => decide ((i' : ℤ) = (i : ℤ)) := by
      funext i'
      simp [RestaurantSource.generate_event, Function.comp]
    rw [heq]
    exact countP_range_cast_eq_one hi
  · intro j hj
    have h0 : freeCount (SMO.init nR nO iv om bc d).event_queue (j : ℤ) = 0 := by
      unfold freeCount
      rw [List.countP_eq_zero]
      intro ev hev
      rcases hqmem ev hev with ⟨i, hi, rfl⟩
      simp
    rw [h0]
    simp only [SMO.init] at hj ⊢
    simp only [List.length_map, List.length_range] at hj
    simp [List.get_eq_getElem]
  · intro o ho
    simp [SMO.init] at ho
  · simp only [SMO.init, busyCount]
    have h0 : ((List.range nO).map fun i : ℕ =>
        ({ operator_id := (i : ℤ), mean_service_time := om, busy := false,
           current_order := none, batch_restaurant_id := none } : Operator)).countP
        (fun o => o.busy) = 0 := by
      rw [List.countP_eq_zero]
      intro op hop
      simp only [List.mem_map] at hop
      rcases hop with ⟨i, _, rfl⟩
      simp
    simp [h0]
  · simp only [SMO.init, initial_restaurants, List.map_map]
    exact foldl_insertEv_pairwise _ [] List.Pairwise.nil
  · intro ev hev
    rcases hqmem ev hev with ⟨i, hi, rfl⟩
    simp only [SMO.init]
    apply div_nonneg
    · exact mul_nonneg (Nat.cast_nonneg i) (le_of_lt hiv)
    · exact Nat.cast_nonneg nR
  · intro ev hev _
    rcases hqmem ev hev with ⟨i, hi, rfl⟩
    simp only [SMO.init, initial_restaurants, List.map_map, Int.toNat_natCast]
    rw [getD_map_range nR i _ hi]
    simp [RestaurantSource.generate_event, Function.comp]


theorem getD_set_self {α : Type} [Inhabited α] {l : List α} {i : ℕ}
    (h : i < l.length) (x : α) : (l.set i x).getD i default = x := by
  rw [List.getD_eq_getElem?_getD, List.getElem?_set_self (by simpa using h)]
  rfl

theorem getD_set_ne {α : Type} [Inhabited α] {l : List α} {i k : ℕ}
    (h : i ≠ k) (x : α) : (l.set i x).getD k default = l.getD k default := by
  rw [List.getD_eq_getElem?_getD, List.getD_eq_getElem?_getD,
    List.getElem?_set_ne h]

theorem getD_eq_get {α : Type} [Inhabited α] {l : List α} {i : ℕ}
    (h : i < l.length) : l.getD i default = l.get ⟨i, h⟩ := by
  rw [List.getD_eq_getElem?_getD, List.getElem?_eq_getElem h]
  simp

/-- What `_take_order_from_buffer_d2b5` guarantees when it yields an order:
the order comes from the buffer, exactly one entry is removed, and the
operator is changed at most in its batch affinity. -/
theorem take_order_some {op : Operator} {b : Buffer} {o : Order}
    {op' : Operator} {b' : Buffer}
    (h : take_order_from_buffer_d2b5 op b = (some o, op', b')) :
    o ∈ b.orders ∧ b'.capacity = b.capacity ∧
    b.orders.length = b'.orders.length + 1 ∧
    (∀ x ∈ b'.orders, x ∈ b.orders) ∧
    op'.operator_id = op.operator_id ∧ op'.busy = op.busy ∧
    op'.mean_service_time = op.mean_service_time ∧
    op'.current_order = op.current_order := by
  unfold take_order_from_buffer_d2b5 at h
  by_cases hemp : b.is_empty = true
  · rw [if_pos hemp] at h
    exact absurd (congrArg (fun p => p.1) h) (by simp)
  · rw [if_neg hemp] at h
    rcases hcont : (match op.batch_restaurant_id with
        | some a => popFirstMatch a b.orders
        | none => none) with _ | ⟨o₂, rest₂⟩
    · rw [hcont] at h
      simp only [] at h
      rcases hsel : select_restaurant_for_batch b with _ | m
      · rw [hsel] at h
        simp only [] at h
        exact absurd (congrArg (fun p => p.1) h) (by simp)
      · rw [hsel] at h
        simp only [] at h
        rcases hpop : popFirstMatch m b.orders with _ | ⟨o₃, rest₃⟩
        · rw [hpop] at h
          simp only [] at h
          exact absurd (congrArg (fun p => p.1) h) (by simp)
        · rw [hpop] at h
          simp only [] at h
          have ho : o₃ = o := by simpa using congrArg (fun p => p.1) h
          have hop : ({ op with batch_restaurant_id := some m } : Operator) = op' := by
            simpa using congrArg (fun p => p.2.1) h
          have hb : ({ b with orders := rest₃ } : Buffer) = b' := by
            simpa using congrArg (fun p => p.2.2) h
          subst ho
          rcases popFirstMatch_eq_some hpop with ⟨l₁, l₂, hb1, hb2, _, _⟩
          refine ⟨by rw [hb1]; simp, by rw [← hb], ?_, ?_, ?_, ?_, ?_, ?_⟩
          · rw [← hb, hb1, hb2]
            simp
            omega
          · intro x hx
            rw [← hb] at hx
            simp only at hx
            rw [hb1]
            rw [hb2] at hx
            simp only [List.mem_append] at hx ⊢
            rcases hx with hx | hx
            · exact Or.inl hx
            · exact Or.inr (List.mem_cons_of_mem _ hx)
          · rw [← hop]
          · rw [← hop]
          · rw [← hop]
          · rw [← hop]
    · rw [hcont] at h
      simp only [] at h
      have ho : o₂ = o := by simpa using congrArg (fun p => p.1) h
      have hop : op = op' := by simpa using congrArg (fun p => p.2.1) h
      have hb : ({ b with orders := rest₂ } : Buffer) = b' := by
        simpa using congrArg (fun p => p.2.2) h
      subst ho
      have hpop : popFirstMatch o₂.restaurant_id b.orders = some (o₂, rest₂) ∨
          ∃ a, popFirstMatch a b.orders = some (o₂, rest₂) := by
        cases hba : op.batch_restaurant_id with
        | none => rw [hba] at hcont; exact absurd hcont (by simp)
        | some a => rw [hba] at hcont; exact Or.inr ⟨a, hcont⟩
      have hpop2 : ∃ a, popFirstMatch a b.orders = some (o₂, rest₂) := by
        rcases hpop with hp | hp
        · exact ⟨_, hp⟩
        · exact hp
      rcases hpop2 with ⟨a, hp⟩
      rcases popFirstMatch_eq_some hp with ⟨l₁, l₂, hb1, hb2, _, _⟩
      refine ⟨by rw [hb1]; simp, by rw [← hb], ?_, ?_, ?_, ?_, ?_, ?_⟩
      · rw [← hb, hb1, hb2]
        simp
        omega
      · intro x hx
        rw [← hb] at hx
        simp only at hx
        rw [hb1]
        rw [hb2] at hx
        simp only [List.mem_append] at hx ⊢
        rcases hx with hx | hx
        · exact Or.inl hx
        · exact Or.inr (List.mem_cons_of_mem _ hx)
      · rw [← hop]
      · rw [← hop]
      · rw [← hop]
      · rw [← hop]

/-- `_take_order_from_buffer_d2b5` yields no order only on an empty buffer,
which it leaves untouched together with the operator. -/
theorem take_order_none {op : Operator} {b : Buffer} {op' : Operator}
    {b' : Buffer} (h : take_order_from_buffer_d2b5 op b = (none, op', b')) :
    b.orders = [] ∧ b' = b ∧ op' = op := by
  unfold take_order_from_buffer_d2b5 at h
  by_cases hemp : b.is_empty = true
  · rw [if_pos hemp] at h
    refine ⟨by simpa [Buffer.is_empty, List.length_eq_zero] using hemp, ?_, ?_⟩
    · exact (congrArg (fun p => p.2.2) h).symm
    · exact (congrArg (fun p => p.2.1) h).symm
  · exfalso
    rw [if_neg hemp] at h
    have hne : b.orders ≠ [] := is_empty_eq_false_iff.mp (by simpa using hemp)
    rcases hcont : (match op.batch_restaurant_id with
        | some a => popFirstMatch a b.orders
        | none => none) with _ | ⟨o₂, rest₂⟩
    · rw [hcont] at h
      simp only [] at h
      rcases hsel : select_restaurant_for_batch b with _ | m
      · unfold select_restaurant_for_batch at hsel
        rcases hpres : b.restaurants_present with _ | ⟨m, t⟩
        · exact restaurants_present_ne_nil hne hpres
        · rw [hpres] at hsel
          exact Option.noConfusion hsel
      · rw [hsel] at h
        have hm : ∃ o' ∈ b.orders, o'.restaurant_id = m := by
          unfold select_restaurant_for_batch at hsel
          rcases hpres : b.restaurants_present with _ | ⟨m', t⟩
          · rw [hpres] at hsel; exact Option.noConfusion hsel
          · rw [hpres] at hsel
            have hmm : m' = m := by simpa using hsel
            subst hmm
            exact mem_restaurants_present.mp (hpres ▸ List.mem_cons_self m' t)
        rcases hm with ⟨o', ho', hrid'⟩
        rcases popFirstMatch_isSome_of_mem ho' hrid' with ⟨o₃, l₃, hp3⟩
        simp only [] at h
        rw [hp3] at h
        simp only [] at h
        exact absurd (congrArg (fun p => p.1) h) (by simp)
    · rw [hcont] at h
      simp only [] at h
      exact absurd (congrArg (fun p => p.1) h) (by simp)


theorem genCount_insertEv_eq (e : Event) (l : List Event) (i : ℤ)
    (h1 : e.etype = .ORDER_GENERATED) (h2 : e.restaurant_id = i) :
    genCount (insertEv e l) i = genCount l i + 1 := by
  unfold genCount
  rw [countP_insertEv]
  simp [h1, h2]

theorem genCount_insertEv_ne (e : Event) (l : List Event) (i : ℤ)
    (h : ¬(e.etype = .ORDER_GENERATED ∧ e.restaurant_id = i)) :
    genCount (insertEv e l) i = genCount l i := by
  unfold genCount
  rw [countP_insertEv]
  simp [h]

theorem freeCount_insertEv_eq (e : Event) (l : List Event) (j : ℤ)
    (h1 : e.etype = .OPERATOR_FREE) (h2 : e.operator_id = j) :
    freeCount (insertEv e l) j = freeCount l j + 1 := by
  unfold freeCount
  rw [countP_insertEv]
  simp [h1, h2]

theorem freeCount_insertEv_ne (e : Event) (l : List Event) (j : ℤ)
    (h : ¬(e.etype = .OPERATOR_FREE ∧ e.operator_id = j)) :
    freeCount (insertEv e l) j = freeCount l j := by
  unfold freeCount
  rw [countP_insertEv]
  simp [h]

/-- The invariant is preserved by the `ORDER_GENERATED` arm of `step`. -/
theorem inv_handle_generated {nR nO : ℕ} {iv : ℚ} {s : SMO} {ev : Event}
    {rest : List Event} (H : Inv nR nO iv s) (hq : s.event_queue = ev :: rest)
    (het : ev.etype = .ORDER_GENERATED) :
    Inv nR nO iv (SMO.handle_generated
      { s with
        time := ev.time, event_queue := rest,
        last_events := s.last_events ++ [ev] } ev) := by
  have hev : ev ∈ s.event_queue := by rw [hq]; exact List.mem_cons_self ev rest
  have hrest_sub : ∀ e ∈ rest, e ∈ s.event_queue := fun e he => by
    rw [hq]; exact List.mem_cons_of_mem ev he
  have hrest_pw : rest.Pairwise fun a b => a.time ≤ b.time := by
    have h := H.time_sorted
    rw [hq] at h
    exact (List.pairwise_cons.mp h).2
  have hhead_le : ∀ e ∈ rest, ev.time ≤ e.time := by
    have h := H.time_sorted
    rw [hq] at h
    exact (List.pairwise_cons.mp h).1
  have hvr := H.q_gen_valid ev hev het
  have hiZ : ((ev.restaurant_id.toNat : ℤ)) = ev.restaurant_id :=
    Int.toNat_of_nonneg hvr.1
  have hiN : ev.restaurant_id.toNat < nR := by omega
  have hiR : ev.restaurant_id.toNat < s.restaurants.length := by
    rw [H.rest_len]
    exact hiN
  have hsrcD : s.restaurants.getD ev.restaurant_id.toNat default =
      s.restaurants.get ⟨ev.restaurant_id.toNat, hiR⟩ := getD_eq_get hiR
  have hsrcD2 : s.restaurants[ev.restaurant_id.toNat]?.getD default =
      s.restaurants.get ⟨ev.restaurant_id.toNat, hiR⟩ := by
    rw [List.getElem?_eq_getElem hiR]
    simp
  have hsrcid : (s.restaurants.get ⟨ev.restaurant_id.toNat, hiR⟩).restaurant_id =
      ev.restaurant_id := by
    rw [H.rest_id _ hiR]
    exact hiZ
  have hsrcint : (s.restaurants.get ⟨ev.restaurant_id.toNat, hiR⟩).interval = iv :=
    H.rest_interval _ (List.get_mem _ _ hiR)
  have hnext : ev.time + iv =
      (s.restaurants.get ⟨ev.restaurant_id.toNat, hiR⟩).next_time := by
    have h := H.next_time_eq ev hev het
    rw [hsrcD] at h
    exact h
  have hsrcidE : s.restaurants[ev.restaurant_id.toNat].restaurant_id =
      ev.restaurant_id := hsrcid
  have hsrcintE : s.restaurants[ev.restaurant_id.toNat].interval = iv := hsrcint
  have hnextE : ev.time + iv = s.restaurants[ev.restaurant_id.toNat].next_time :=
    hnext
  have hgc0 : genCount rest ev.restaurant_id = 0 := by
    have h1 := H.gen_one ev.restaurant_id.toNat hiN
    rw [hiZ, hq] at h1
    unfold genCount at h1 ⊢
    rw [List.countP_cons] at h1
    have hpev : decide (ev.etype = EventType.ORDER_GENERATED ∧
        ev.restaurant_id = ev.restaurant_id) = true := by simp [het]
    rw [hpev] at h1
    rw [if_pos rfl] at h1
    omega
  have hgc_rest : ∀ i : ℕ, i < nR → (i : ℤ) ≠ ev.restaurant_id →
      genCount rest (i : ℤ) = 1 := by
    intro i hi hne
    have h1 := H.gen_one i hi
    rw [hq] at h1
    unfold genCount at h1 ⊢
    rw [List.countP_cons] at h1
    have hpev : decide (ev.etype = EventType.ORDER_GENERATED ∧
        ev.restaurant_id = (i : ℤ)) = false := by
      simp only [decide_eq_false_iff_not, not_and]
      intro _ hc
      exact hne hc.symm
    rw [hpev] at h1
    rw [if_neg (by simp)] at h1
    omega
  have hfc_rest : ∀ j : ℤ, freeCount rest j = freeCount s.event_queue j := by
    intro j
    rw [hq]
    unfold freeCount
    rw [List.countP_cons]
    have : decide (ev.etype = EventType.OPERATOR_FREE ∧ ev.operator_id = j) =
        false := by simp [het]
    rw [this, if_neg (by simp)]
    omega
  simp only [SMO.handle_generated, SMO.get_free_operator_d2p1, SMO.push_event,
    SMO.logEvent, Operator.start_service, RestaurantSource.generate_event,
    mergeSort_operators_eq_self H.ops_id, List.getD_eq_getElem?_getD, hsrcD2]
  split
  case _ op heq =>
    rcases find?_eq_some_first heq with ⟨j, hj, hops_get, hpj, hbefore⟩
    have hnb : op.busy = false := by simpa using hpj
    have hjid : op.operator_id = (j : ℤ) := by
      rw [← hops_get]
      exact H.ops_id j hj
    have hjb : (s.operators.get ⟨j, hj⟩).busy = false := by
      rw [hops_get]
      exact hnb
    rw [← hops_get, updateOperatorById_eq_set H.ops_id j hj]
    refine ⟨H.iv_pos, fun n => H.draws_nonneg (n + 1), ?_, ?_, ?_, ?_, ?_,
      H.wait_len, ?_, ?_, ?_, ?_, ?_, H.buf_valid, ?_, ?_, ?_, ?_⟩
    · simp [H.ops_len]
    · intro k hk
      have hk' : k < s.operators.length := by simpa using hk
      simp only [List.get_eq_getElem, List.getElem_set]
      by_cases hkj : j = k
      · subst hkj
        rw [if_pos rfl]
        have := H.ops_id j hj
        simp only [List.get_eq_getElem] at this
        simpa using this
      · rw [if_neg hkj]
        have := H.ops_id k hk'
        simpa [List.get_eq_getElem] using this
    · simp [H.rest_len]
    · intro i hi
      have hi' : i < s.restaurants.length := by simpa using hi
      simp only [List.get_eq_getElem, List.getElem_set]
      by_cases hik : ev.restaurant_id.toNat = i
      · subst hik
        rw [if_pos rfl]
        have := hsrcid
        simp only [List.get_eq_getElem] at this
        simpa [hiZ] using this
      · rw [if_neg hik]
        have := H.rest_id i hi'
        simpa [List.get_eq_getElem] using this
    · intro r hr
      rcases List.mem_or_eq_of_mem_set hr with hr | rfl
      · exact H.rest_interval r hr
      · simpa using hsrcint
    · intro e he
      rcases mem_insertEv.mp he with rfl | he
      · exact Or.inr rfl
      rcases mem_insertEv.mp he with rfl | he
      · exact Or.inl rfl
      · exact H.q_types e (hrest_sub e he)
    · intro e he hetg
      rcases mem_insertEv.mp he with rfl | he
      · exact absurd hetg (by simp)
      rcases mem_insertEv.mp he with rfl | he
      · simp only []
        rw [hsrcid]
        exact hvr
      · exact H.q_gen_valid e (hrest_sub e he) hetg
    · intro e he hetf
      rcases mem_insertEv.mp he with rfl | he
      · refine ⟨⟨?_, ?_⟩, ?_⟩
        · simp only []
          rw [H.ops_id j hj]
          exact Int.natCast_nonneg j
        · simp only []
          rw [H.ops_id j hj]
          have : j < nO := by rw [← H.ops_len]; exact hj
          exact_mod_cast this
        · simpa using hvr
      rcases mem_insertEv.mp he with rfl | he
      · exact absurd hetf (by simp)
      · exact H.q_free_valid e (hrest_sub e he) hetf
    · intro i hi
      by_cases hii : (i : ℤ) = ev.restaurant_id
      · rw [hii]
        rw [genCount_insertEv_ne _ _ _ (by simp)]
        rw [genCount_insertEv_eq _ _ _ rfl hsrcid]
        rw [hgc0]
      · rw [genCount_insertEv_ne _ _ _ (by simp)]
        rw [genCount_insertEv_ne _ _ _ (by
          rintro ⟨-, hc⟩
          rw [hsrcid] at hc
          exact hii hc.symm)]
        exact hgc_rest i hi hii
    · intro j' hj'
      have hj'' : j' < s.operators.length := by simpa using hj'
      by_cases hjj : j' = j
      · subst hjj
        have h0 : freeCount rest ((j' : ℤ)) = 0 := by
          rw [hfc_rest]
          have h2 := H.free_busy j' hj
          rw [hjb] at h2
          simpa using h2
        rw [freeCount_insertEv_eq _ _ _ rfl (H.ops_id j' hj)]
        rw [freeCount_insertEv_ne _ _ _ (by simp)]
        rw [h0]
        simp only [List.get_eq_getElem, List.getElem_set, if_pos rfl]
        simp
      · have h1 : freeCount rest ((j' : ℤ)) =
            (if (s.operators.get ⟨j', hj''⟩).busy then 1 else 0) := by
          rw [hfc_rest]
          exact H.free_busy j' hj''
        rw [freeCount_insertEv_ne _ _ _ (by
          rintro ⟨-, hc⟩
          simp only [] at hc
          rw [H.ops_id j hj] at hc
          exact hjj (by exact_mod_cast hc.symm))]
        rw [freeCount_insertEv_ne _ _ _ (by simp)]
        rw [h1]
        simp only [List.get_eq_getElem, List.getElem_set]
        rw [if_neg (show ¬(j = j') from fun h => hjj h.symm)]
    · have hcs := countP_set (fun o => o.busy) s.operators j
        { operator_id := (s.operators.get ⟨j, hj⟩).operator_id,
          mean_service_time := (s.operators.get ⟨j, hj⟩).mean_service_time,
          busy := true,
          current_order := some { restaurant_id := ev.restaurant_id, order_id := ev.order_id, timestamp := ev.time },
          batch_restaurant_id := some ev.restaurant_id } hj
      simp only [hjb] at hcs
      norm_num at hcs
      have hc := H.conserve
      unfold busyCount at hc ⊢
      simp only [List.get_eq_getElem]
      rw [hcs]
      push_cast
      omega
    · exact pairwise_time_insertEv (pairwise_time_insertEv hrest_pw)
    · intro e he
      rcases mem_insertEv.mp he with rfl | he
      · simp only []
        have := H.draws_nonneg 0
        linarith
      rcases mem_insertEv.mp he with rfl | he
      · simp only []
        rw [← hnext]
        have := H.iv_pos
        linarith
      · exact hhead_le e he
    · intro e he hetg
      rcases mem_insertEv.mp he with rfl | he
      · exact absurd hetg (by simp)
      rcases mem_insertEv.mp he with rfl | he
      · simp only []
        rw [hsrcid, getD_set_self hiR]
        simp only []
        rw [← hnext, hsrcint]
      · have hvr' := H.q_gen_valid e (hrest_sub e he) hetg
        have hne : e.restaurant_id ≠ ev.restaurant_id := by
          intro hc
          have hpos : 0 < genCount rest ev.restaurant_id := by
            unfold genCount
            rw [List.countP_pos_iff]
            exact ⟨e, he, by simp [hetg, hc]⟩
          omega
        have htne : ev.restaurant_id.toNat ≠ e.restaurant_id.toNat := by omega
        rw [getD_set_ne htne]
        exact H.next_time_eq e (hrest_sub e he) hetg
  case _ heq =>
    simp only [Buffer.add_fifo]
    by_cases hfull : s.buffer.is_full = true
    · rw [if_pos hfull]
      simp only []
      rw [if_neg (show ¬((-1 : ℤ) ≠ -1) from fun h => h rfl)]
      refine ⟨H.iv_pos, H.draws_nonneg, H.ops_len, H.ops_id, ?_, ?_, ?_,
        H.wait_len, ?_, ?_, ?_, ?_, ?_, H.buf_valid, ?_, ?_, ?_, ?_⟩
      · simp [H.rest_len]
      · intro i hi
        have hi' : i < s.restaurants.length := by simpa using hi
        simp only [List.get_eq_getElem, List.getElem_set]
        by_cases hik : ev.restaurant_id.toNat = i
        · subst hik
          rw [if_pos rfl]
          have := hsrcid
          simp only [List.get_eq_getElem] at this
          simpa [hiZ] using this
        · rw [if_neg hik]
          have := H.rest_id i hi'
          simpa [List.get_eq_getElem] using this
      · intro r hr
        rcases List.mem_or_eq_of_mem_set hr with hr | rfl
        · exact H.rest_interval r hr
        · simpa using hsrcint
      · intro e he
        rcases mem_insertEv.mp he with rfl | he
        · exact Or.inl rfl
        · exact H.q_types e (hrest_sub e he)
      · intro e he hetg
        rcases mem_insertEv.mp he with rfl | he
        · simp only []
          rw [hsrcid]
          exact hvr
        · exact H.q_gen_valid e (hrest_sub e he) hetg
      · intro e he hetf
        rcases mem_insertEv.mp he with rfl | he
        · exact absurd hetf (by simp)
        · exact H.q_free_valid e (hrest_sub e he) hetf
      · intro i hi
        by_cases hii : (i : ℤ) = ev.restaurant_id
        · rw [hii]
          rw [genCount_insertEv_eq _ _ _ rfl hsrcid]
          rw [hgc0]
        · rw [genCount_insertEv_ne _ _ _ (by
            rintro ⟨-, hc⟩
            rw [hsrcid] at hc
            exact hii hc.symm)]
          exact hgc_rest i hi hii
      · intro j' hj'
        rw [freeCount_insertEv_ne _ _ _ (by simp)]
        rw [hfc_rest]
        exact H.free_busy j' hj'
      · have hc := H.conserve
        simp only []
        omega
      · exact pairwise_time_insertEv hrest_pw
      · intro e he
        rcases mem_insertEv.mp he with rfl | he
        · simp only []
          rw [← hnext]
          have := H.iv_pos
          linarith
        · exact hhead_le e he
      · intro e he hetg
        rcases mem_insertEv.mp he with rfl | he
        · simp only []
          rw [hsrcid, getD_set_self hiR]
          simp only []
          rw [← hnext, hsrcint]
        · have hvr' := H.q_gen_valid e (hrest_sub e he) hetg
          have hne : e.restaurant_id ≠ ev.restaurant_id := by
            intro hc
            have hpos : 0 < genCount rest ev.restaurant_id := by
              unfold genCount
              rw [List.countP_pos_iff]
              exact ⟨e, he, by simp [hetg, hc]⟩
            omega
          have htne : ev.restaurant_id.toNat ≠ e.restaurant_id.toNat := by omega
          rw [getD_set_ne htne]
          exact H.next_time_eq e (hrest_sub e he) hetg
    · rw [if_neg hfull]
      simp only []
      have hposne : ((s.buffer.orders.length : ℤ)) ≠ -1 := by
        have := Int.natCast_nonneg s.buffer.orders.length
        omega
      rw [if_pos hposne]
      refine ⟨H.iv_pos, H.draws_nonneg, H.ops_len, H.ops_id, ?_, ?_, ?_,
        H.wait_len, ?_, ?_, ?_, ?_, ?_, ?_, ?_, ?_, ?_, ?_⟩
      · simp [H.rest_len]
      · intro i hi
        have hi' : i < s.restaurants.length := by simpa using hi
        simp only [List.get_eq_getElem, List.getElem_set]
        by_cases hik : ev.restaurant_id.toNat = i
        · subst hik
          rw [if_pos rfl]
          have := hsrcid
          simp only [List.get_eq_getElem] at this
          simpa [hiZ] using this
        · rw [if_neg hik]
          have := H.rest_id i hi'
          simpa [List.get_eq_getElem] using this
      · intro r hr
        rcases List.mem_or_eq_of_mem_set hr with hr | rfl
        · exact H.rest_interval r hr
        · simpa using hsrcint
      · intro e he
        rcases mem_insertEv.mp he with rfl | he
        · exact Or.inl rfl
        · exact H.q_types e (hrest_sub e he)
      · intro e he hetg
        rcases mem_insertEv.mp he with rfl | he
        · simp only []
          rw [hsrcid]
          exact hvr
        · exact H.q_gen_valid e (hrest_sub e he) hetg
      · intro e he hetf
        rcases mem_insertEv.mp he with rfl | he
        · exact absurd hetf (by simp)
        · exact H.q_free_valid e (hrest_sub e he) hetf
      · intro i hi
        by_cases hii : (i : ℤ) = ev.restaurant_id
        · rw [hii]
          rw [genCount_insertEv_eq _ _ _ rfl hsrcid]
          rw [hgc0]
        · rw [genCount_insertEv_ne _ _ _ (by
            rintro ⟨-, hc⟩
            rw [hsrcid] at hc
            exact hii hc.symm)]
          exact hgc_rest i hi hii
      · intro j' hj'
        rw [freeCount_insertEv_ne _ _ _ (by simp)]
        rw [hfc_rest]
        exact H.free_busy j' hj'
      · intro o ho
        rcases List.mem_append.mp ho with ho | ho
        · exact H.buf_valid o ho
        · rcases List.mem_singleton.mp ho with rfl
          simpa using hvr
      · have hc := H.conserve
        simp only [List.length_append, List.length_singleton]
        push_cast
        push_cast at hc
        omega
      · exact pairwise_time_insertEv hrest_pw
      · intro e he
        rcases mem_insertEv.mp he with rfl | he
        · simp only []
          rw [← hnext]
          have := H.iv_pos
          linarith
        · exact hhead_le e he
      · intro e he hetg
        rcases mem_insertEv.mp he with rfl | he
        · simp only []
          rw [hsrcid, getD_set_self hiR]
          simp only []
          rw [← hnext, hsrcint]
        · have hvr' := H.q_gen_valid e (hrest_sub e he) hetg
          have hne : e.restaurant_id ≠ ev.restaurant_id := by
            intro hc
            have hpos : 0 < genCount rest ev.restaurant_id := by
              unfold genCount
              rw [List.countP_pos_iff]
              exact ⟨e, he, by simp [hetg, hc]⟩
            omega
          have htne : ev.restaurant_id.toNat ≠ e.restaurant_id.toNat := by omega
          rw [getD_set_ne htne]
          exact H.next_time_eq e (hrest_sub e he) hetg

/-- The invariant is preserved by the `OPERATOR_FREE` arm of `step`. -/
theorem inv_handle_free {nR nO : ℕ} {iv : ℚ} {s : SMO} {ev : Event}
    {rest : List Event} (H : Inv nR nO iv s) (hq : s.event_queue = ev :: rest)
    (het : ev.etype = .OPERATOR_FREE) :
    Inv nR nO iv (SMO.handle_operator_free
      { s with
        time := ev.time, event_queue := rest,
        last_events := s.last_events ++ [ev] } ev) := by
  have hev : ev ∈ s.event_queue := by rw [hq]; exact List.mem_cons_self ev rest
  have hrest_sub : ∀ e ∈ rest, e ∈ s.event_queue := fun e he => by
    rw [hq]; exact List.mem_cons_of_mem ev he
  have hrest_pw : rest.Pairwise fun a b => a.time ≤ b.time := by
    have h := H.time_sorted
    rw [hq] at h
    exact (List.pairwise_cons.mp h).2
  have hhead_le : ∀ e ∈ rest, ev.time ≤ e.time := by
    have h := H.time_sorted
    rw [hq] at h
    exact (List.pairwise_cons.mp h).1
  have hvf := H.q_free_valid ev hev het
  have hjZ : ((ev.operator_id.toNat : ℤ)) = ev.operator_id :=
    Int.toNat_of_nonneg hvf.1.1
  have hjN : ev.operator_id.toNat < nO := by omega
  have hjO : ev.operator_id.toNat < s.operators.length := by
    rw [H.ops_len]
    exact hjN
  have hopD2 : s.operators[ev.operator_id.toNat]?.getD default =
      s.operators.get ⟨ev.operator_id.toNat, hjO⟩ := by
    rw [List.getElem?_eq_getElem hjO]
    simp
  have hopidj : (s.operators.get ⟨ev.operator_id.toNat, hjO⟩).operator_id =
      ((ev.operator_id.toNat : ℤ)) := H.ops_id _ hjO
  have hfb := H.free_busy ev.operator_id.toNat hjO
  have hsplit : freeCount s.event_queue ((ev.operator_id.toNat : ℤ)) =
      freeCount rest ((ev.operator_id.toNat : ℤ)) + 1 := by
    rw [hq]
    unfold freeCount
    rw [List.countP_cons]
    have hd : decide (ev.etype = EventType.OPERATOR_FREE ∧
        ev.operator_id = ((ev.operator_id.toNat : ℤ))) = true := by
      simp [het, hjZ]
    rw [hd, if_pos rfl]
  have hbusy : (s.operators.get ⟨ev.operator_id.toNat, hjO⟩).busy = true := by
    by_contra hc
    rw [Bool.not_eq_true] at hc
    rw [hc] at hfb
    simp only [Bool.false_eq_true, if_false] at hfb
    omega
  have hfc0 : freeCount rest ((ev.operator_id.toNat : ℤ)) = 0 := by
    rw [hbusy] at hfb
    simp only [if_true] at hfb
    omega
  have hfcne : ∀ j' : ℤ, j' ≠ ev.operator_id →
      freeCount rest j' = freeCount s.event_queue j' := by
    intro j' hne
    rw [hq]
    unfold freeCount
    rw [List.countP_cons]
    have hd : decide (ev.etype = EventType.OPERATOR_FREE ∧
        ev.operator_id = j') = false := by
      simp [Ne.symm hne]
    rw [hd, if_neg (by simp)]
    omega
  have hgc_rest : ∀ i : ℤ, genCount rest i = genCount s.event_queue i := by
    intro i
    rw [hq]
    unfold genCount
    rw [List.countP_cons]
    have hd : decide (ev.etype = EventType.ORDER_GENERATED ∧
        ev.restaurant_id = i) = false := by simp [het]
    rw [hd, if_neg (by simp)]
    omega
  have hrW : ev.restaurant_id.toNat < s.wait_times.length := by
    rw [H.wait_len]
    have := hvf.2
    omega
  simp only [SMO.handle_operator_free, SMO.push_event, SMO.logEvent,
    Operator.start_service, Operator.free, List.getD_eq_getElem?_getD, hopD2]
  split
  case _ next_order op' b' heq =>
    rcases take_order_some heq with
      ⟨hmem, hcap, hlen, hsub, hid', hbusy', hmean', hcur'⟩
    rw [List.set_set]
    have hopid' : op'.operator_id = ((ev.operator_id.toNat : ℤ)) := by
      rw [hid']
      simpa using hopidj
    refine ⟨H.iv_pos, fun n => H.draws_nonneg (n + 1), ?_, ?_, H.rest_len,
      H.rest_id, H.rest_interval, ?_, ?_, ?_, ?_, ?_, ?_, ?_, ?_, ?_, ?_, ?_⟩
    · simp [H.ops_len]
    · intro k hk
      have hk' : k < s.operators.length := by simpa using hk
      simp only [List.get_eq_getElem, List.getElem_set]
      by_cases hkj : ev.operator_id.toNat = k
      · subst hkj
        rw [if_pos rfl]
        simp only []
        rw [hopid']
      · rw [if_neg hkj]
        have := H.ops_id k hk'
        simpa [List.get_eq_getElem] using this
    · simp [H.wait_len]
    · intro e he
      rcases mem_insertEv.mp he with rfl | he
      · exact Or.inr rfl
      · exact H.q_types e (hrest_sub e he)
    · intro e he hetg
      rcases mem_insertEv.mp he with rfl | he
      · exact absurd hetg (by simp)
      · exact H.q_gen_valid e (hrest_sub e he) hetg
    · intro e he hetf
      rcases mem_insertEv.mp he with rfl | he
      · refine ⟨⟨?_, ?_⟩, ?_⟩
        · simp only []
          rw [hopid']
          exact Int.natCast_nonneg _
        · simp only []
          rw [hopid']
          exact_mod_cast hjN
        · simpa using H.buf_valid next_order hmem
      · exact H.q_free_valid e (hrest_sub e he) hetf
    · intro i hi
      rw [genCount_insertEv_ne _ _ _ (by simp)]
      rw [hgc_rest]
      exact H.gen_one i hi
    · intro j' hj'
      have hj'' : j' < s.operators.length := by simpa using hj'
      by_cases hjj : j' = ev.operator_id.toNat
      · subst hjj
        rw [freeCount_insertEv_eq _ _ _ rfl hopid']
        rw [hfc0]
        simp only [List.get_eq_getElem, List.getElem_set, if_pos rfl]
        simp
      · rw [freeCount_insertEv_ne _ _ _ (by
          rintro ⟨-, hc⟩
          simp only [] at hc
          rw [hopid'] at hc
          exact hjj (by exact_mod_cast hc.symm))]
        rw [hfcne _ (fun hc => hjj (by omega))]
        have h1 := H.free_busy j' hj''
        rw [h1]
        simp only [List.get_eq_getElem, List.getElem_set]
        rw [if_neg (show ¬(ev.operator_id.toNat = j') from fun h => hjj h.symm)]
    · intro o ho
      exact H.buf_valid o (hsub o ho)
    · have hcs := countP_set (fun o => o.busy) s.operators ev.operator_id.toNat
        { operator_id := op'.operator_id,
          mean_service_time := op'.mean_service_time,
          busy := true,
          current_order := some next_order,
          batch_restaurant_id := some next_order.restaurant_id } hjO
      simp only [hbusy] at hcs
      norm_num at hcs
      have hc := H.conserve
      unfold busyCount at hc ⊢
      simp only [List.get_eq_getElem]
      rw [hcs]
      have hlen' : s.buffer.orders.length = b'.orders.length + 1 := hlen
      omega
    · exact pairwise_time_insertEv hrest_pw
    · intro e he
      rcases mem_insertEv.mp he with rfl | he
      · simp only []
        have := H.draws_nonneg 0
        linarith
      · exact hhead_le e he
    · intro e he hetg
      rcases mem_insertEv.mp he with rfl | he
      · exact absurd hetg (by simp)
      · exact H.next_time_eq e (hrest_sub e he) hetg
  case _ op' b' heq =>
    rcases take_order_none heq with ⟨hbe, hb', hop'⟩
    subst hb'
    subst hop'
    rw [List.set_set]
    have hlen0 : s.buffer.orders.length = 0 := by rw [hbe]; rfl
    refine ⟨H.iv_pos, H.draws_nonneg, ?_, ?_, H.rest_len,
      H.rest_id, H.rest_interval, ?_, ?_, ?_, ?_, ?_, ?_, H.buf_valid, ?_,
      hrest_pw, hhead_le, ?_⟩
    · simp [H.ops_len]
    · intro k hk
      have hk' : k < s.operators.length := by simpa using hk
      simp only [List.get_eq_getElem, List.getElem_set]
      by_cases hkj : ev.operator_id.toNat = k
      · subst hkj
        rw [if_pos rfl]
        simp only []
        simpa using hopidj
      · rw [if_neg hkj]
        have := H.ops_id k hk'
        simpa [List.get_eq_getElem] using this
    · simp [H.wait_len]
    · intro e he
      exact H.q_types e (hrest_sub e he)
    · intro e he hetg
      exact H.q_gen_valid e (hrest_sub e he) hetg
    · intro e he hetf
      exact H.q_free_valid e (hrest_sub e he) hetf
    · intro i hi
      rw [hgc_rest]
      exact H.gen_one i hi
    · intro j' hj'
      have hj'' : j' < s.operators.length := by simpa using hj'
      by_cases hjj : j' = ev.operator_id.toNat
      · subst hjj
        rw [hfc0]
        simp only [List.get_eq_getElem, List.getElem_set, if_pos rfl]
        simp
      · rw [hfcne _ (fun hc => hjj (by omega))]
        have h1 := H.free_busy j' hj''
        rw [h1]
        simp only [List.get_eq_getElem, List.getElem_set]
        rw [if_neg (show ¬(ev.operator_id.toNat = j') from fun h => hjj h.symm)]
    · have hcs := countP_set (fun o => o.busy) s.operators ev.operator_id.toNat
        { operator_id := (s.operators.get ⟨ev.operator_id.toNat, hjO⟩).operator_id,
          mean_service_time :=
            (s.operators.get ⟨ev.operator_id.toNat, hjO⟩).mean_service_time,
          busy := false,
          current_order := none,
          batch_restaurant_id :=
            (s.operators.get ⟨ev.operator_id.toNat, hjO⟩).batch_restaurant_id } hjO
      simp only [hbusy] at hcs
      norm_num at hcs
      have hc := H.conserve
      unfold busyCount at hc ⊢
      simp only [List.get_eq_getElem]
      omega
    · intro e he hetg
      exact H.next_time_eq e (hrest_sub e he) hetg

/-- The invariant is preserved by one `step`. -/
theorem inv_step {nR nO : ℕ} {iv : ℚ} {s : SMO} (H : Inv nR nO iv s) :
    Inv nR nO iv (s.step).1 := by
  rcases hq : s.event_queue with _ | ⟨ev, rest⟩
  · have hstep : s.step = (s, false) := by
      unfold SMO.step
      rw [hq]
    rw [hstep]
    exact H
  · rcases H.q_types ev (by rw [hq]; exact List.mem_cons_self ev rest) with het | het
    · rw [step_eq_gen s ev rest hq het]
      exact inv_handle_generated H hq het
    · rw [step_eq_free s ev rest hq het]
      exact inv_handle_free H hq het

/-- States reachable from a freshly constructed engine by iterating `step`,
as the CLI loops do (the returned flag is ignored). -/
inductive Reach (nR nO : ℕ) (iv om : ℚ) (bc : ℤ) (d : ℕ → ℚ) : SMO → Prop
  | init : Reach nR nO iv om bc d (SMO.init nR nO iv om bc d)
  | step {s : SMO} : Reach nR nO iv om bc d s → Reach nR nO iv om bc d (s.step).1

/-- Every reachable state of a well-configured engine satisfies the
inductive invariant. -/
theorem inv_of_reach {nR nO : ℕ} {iv om : ℚ} {bc : ℤ} {d : ℕ → ℚ} {s : SMO}
    (hiv : 0 < iv) (hd : ∀ n, 0 ≤ d n)
    (h : Reach nR nO iv om bc d s) : Inv nR nO iv s := by
  induction h with
  | init => exact inv_init nR nO iv om bc d hiv hd
  | step _ ih => exact inv_step ih

theorem handle_generated_time (s : SMO) (ev : Event) :
    (SMO.handle_generated s ev).time = s.time := by
  simp only [SMO.handle_generated, SMO.push_event, SMO.logEvent]
  split
  · rfl
  · split
    · rfl
    · rfl

theorem handle_free_time (s : SMO) (ev : Event) :
    (SMO.handle_operator_free s ev).time = s.time := by
  simp only [SMO.handle_operator_free, SMO.push_event, SMO.logEvent]
  split
  · rfl
  · rfl

/-- The clock never moves backwards in one step from an invariant state. -/
theorem step_time_mono {nR nO : ℕ} {iv : ℚ} {s : SMO} (H : Inv nR nO iv s) :
    s.time ≤ (s.step).1.time := by
  rcases hq : s.event_queue with _ | ⟨ev, rest⟩
  · have hstep : s.step = (s, false) := by
      unfold SMO.step
      rw [hq]
    rw [hstep]
  · have hle : s.time ≤ ev.time :=
      H.time_lb ev (by rw [hq]; exact List.mem_cons_self ev rest)
    rcases H.q_types ev (by rw [hq]; exact List.mem_cons_self ev rest) with het | het
    · rw [step_eq_gen s ev rest hq het]
      simp only []
      rw [handle_generated_time]
      exact hle
    · rw [step_eq_free s ev rest hq het]
      simp only []
      rw [handle_free_time]
      exact hle

/-! ## Claim C1: conservation of orders -/

/-- C1: in every state reachable by any sequence of `step` calls from a
freshly constructed engine (valid interval, non-negative service draws),
`total_generated` equals `total_processed` plus `total_rejected` plus the
number of orders currently in the buffer plus the number of busy servers. -/
theorem C1_conservation {nR nO : ℕ} {iv om : ℚ} {bc : ℤ} {d : ℕ → ℚ} {s : SMO}
    (hiv : 0 < iv) (hd : ∀ n, 0 ≤ d n) (h : Reach nR nO iv om bc d s) :
    s.total_generated = s.total_processed + s.total_rejected +
      (s.buffer.orders.length : ℤ) + (busyCount s.operators : ℤ) :=
  (inv_of_reach hiv hd h).conserve

theorem C1_conservation_witness :
    (SMO.runSteps 2 (SMO.init 1 1 2 5 1 fun _ => 1)).total_generated =
      (SMO.runSteps 2 (SMO.init 1 1 2 5 1 fun _ => 1)).total_processed +
      (SMO.runSteps 2 (SMO.init 1 1 2 5 1 fun _ => 1)).total_rejected +
      ((SMO.runSteps 2 (SMO.init 1 1 2 5 1 fun _ => 1)).buffer.orders.length : ℤ) +
      (busyCount (SMO.runSteps 2 (SMO.init 1 1 2 5 1 fun _ => 1)).operators : ℤ) :=
  C1_conservation (by norm_num) (fun n => by norm_num)
    (Reach.step (Reach.step Reach.init))

/-! ## Claim C8: monotonic clock -/

/-- C8: from every reachable state, the virtual clock `time` does not
decrease over a `step` (successive popped events have non-decreasing times,
since the clock is set to each popped event's time), and every event pending
after the step — in particular every event pushed during it — is timed at or
after the new clock. -/
theorem C8_monotonic_clock {nR nO : ℕ} {iv om : ℚ} {bc : ℤ} {d : ℕ → ℚ}
    {s : SMO} (hiv : 0 < iv) (hd : ∀ n, 0 ≤ d n)
    (h : Reach nR nO iv om bc d s) :
    s.time ≤ (s.step).1.time ∧
      ∀ e ∈ (s.step).1.event_queue, (s.step).1.time ≤ e.time := by
  have H := inv_of_reach hiv hd h
  exact ⟨step_time_mono H, (inv_step H).time_lb⟩

theorem C8_monotonic_clock_witness :
    (SMO.init 1 1 2 5 1 fun _ => 1).time ≤
      ((SMO.init 1 1 2 5 1 fun _ => 1).step).1.time ∧
      ∀ e ∈ ((SMO.init 1 1 2 5 1 fun _ => 1).step).1.event_queue,
        ((SMO.init 1 1 2 5 1 fun _ => 1).step).1.time ≤ e.time :=
  C8_monotonic_clock (by norm_num) (fun n => by norm_num) Reach.init

/-! ## Claim C10: one pending arrival per source -/

/-- C10: in every reachable state of an engine built with at least one
source, the calendar holds exactly one pending `ORDER_GENERATED` event per
source, so it is never empty and `step` always returns `true`. -/
theorem C10_one_pending_arrival {nR nO : ℕ} {iv om : ℚ} {bc : ℤ} {d : ℕ → ℚ}
    {s : SMO} (hiv : 0 < iv) (hd : ∀ n, 0 ≤ d n) (hnR : 0 < nR)
    (h : Reach nR nO iv om bc d s) :
    (∀ i : ℕ, i < nR → genCount s.event_queue (i : ℤ) = 1) ∧
      s.event_queue ≠ [] ∧ (s.step).2 = true := by
  have H := inv_of_reach hiv hd h
  have hne : s.event_queue ≠ [] := by
    intro hq
    have h1 := H.gen_one 0 hnR
    rw [hq] at h1
    simp [genCount] at h1
  refine ⟨H.gen_one, hne, ?_⟩
  rcases hq : s.event_queue with _ | ⟨ev, rest⟩
  · exact absurd hq hne
  · rcases H.q_types ev (by rw [hq]; exact List.mem_cons_self ev rest) with het | het
    · rw [step_eq_gen s ev rest hq het]
    · rw [step_eq_free s ev rest hq het]

theorem C10_one_pending_arrival_witness :
    (∀ i : ℕ, i < 1 →
      genCount (SMO.init 1 1 2 5 1 fun _ => 1).event_queue (i : ℤ) = 1) ∧
      (SMO.init 1 1 2 5 1 fun _ => 1).event_queue ≠ [] ∧
      ((SMO.init 1 1 2 5 1 fun _ => 1).step).2 = true :=
  C10_one_pending_arrival (by norm_num) (fun n => by norm_num) (by norm_num)
    Reach.init

end FoodDeliverySMO
